import Mathlib

/-!
# Verification of the `secondbrain` retrieval-augmented answering engine

Shallow embedding of `src/rag.py` (class `SecondBrain`) over `List Char`
(a Python `str` is modelled as its list of characters).  Every definition
below is translated from the Python source; deviations forced by totality
(an explicit fuel for a `while` loop that Python would run forever on
`chunk_size = 0`) are noted where they occur.
-/

/-- The characters Python's `str.strip()` and the regex class `\s` treat as
whitespace (ASCII range). -/
def isWS (c : Char) : Bool :=
  c == ' ' || c == '\t' || c == '\n' || c == '\r' || c == '\x0b' || c == '\x0c'

/-- Newline character, used pervasively by the chunker. -/
def NLc : Char := '\n'

/-- Remove leading whitespace: the left half of Python `str.strip()`. -/
def trimL (l : List Char) : List Char := l.dropWhile isWS

/-- Remove trailing whitespace: the right half of Python `str.strip()`. -/
def trimR (l : List Char) : List Char := (l.reverse.dropWhile isWS).reverse

/-- Python `str.strip()`. -/
def strip (l : List Char) : List Char := trimR (trimL l)

/-- Prepend a character to the first piece of a split result
(helper for the splitting functions below). -/
def consHead (c : Char) : List (List Char) → List (List Char)
  | [] => [[c]]
  | p :: ps => (c :: p) :: ps

/-- Python `text.split("\n\n")`: non-overlapping left-to-right scan for the
two-newline separator.  `"".split("\n\n") = [""]` is matched by the base
case. -/
def splitNN : List Char → List (List Char)
  | [] => [[]]
  | [c] => [[c]]
  | c1 :: c2 :: rest =>
    if c1 = '\n' ∧ c2 = '\n' then [] :: splitNN rest
    else consHead c1 (splitNN (c2 :: rest))

/-- Python `s.rfind(sep)` restricted to a non-empty needle, returning the
highest index at which `sep` occurs in `l` (`none` plays the role of `-1`). -/
def rfindSep (sep l : List Char) : Option Nat :=
  (List.range (l.length + 1)).reverse.find? (fun i => sep.isPrefixOf (l.drop i))

/-- One pass of the separator-priority search in `_smart_chunk`'s `while`
loop: `for sep in separators[1:]: match = current_chunk[:chunk_size].rfind(sep)`.
The final separator `""` always matches (Python `rfind("") = len(s)`), so the
`split_idx == -1` hard-cut branch of the source is dead code; the last case
below returns `window.length`, which equals the value Python computes for
the `""` separator. -/
def findSplitIdx (n : Nat) (cur : List Char) : Nat :=
  match rfindSep ['\n'] (cur.take n) with
  | some m => m + 1
  | none =>
  match rfindSep ['.', ' '] (cur.take n) with
  | some m => m + 2
  | none =>
  match rfindSep ['?', ' '] (cur.take n) with
  | some m => m + 2
  | none =>
  match rfindSep ['!', ' '] (cur.take n) with
  | some m => m + 2
  | none =>
  match rfindSep [' '] (cur.take n) with
  | some m => m + 1
  | none => (cur.take n).length

/-- The `while len(current_chunk) > chunk_size` loop of `_smart_chunk`,
made total with explicit fuel.  For `chunk_size ≥ 1` every iteration strictly
shortens the buffer, so fuel `= current.length` reproduces the Python loop
exactly; for `chunk_size = 0` Python diverges and the fuel runs out instead.
Returns the carved-off chunks and the remaining buffer. -/
def carveFuel (n : Nat) : Nat → List Char → List (List Char) × List Char
  | 0, cur => ([], cur)
  | fuel + 1, cur =>
    if n < cur.length then
      let idx := findSplitIdx n cur
      let r := carveFuel n fuel (cur.drop idx)
      (strip (cur.take idx) :: r.1, r.2)
    else ([], cur)

/-- The `for part in parts` loop of `_smart_chunk`, carrying the running
buffer `cur` (Python `current_chunk`) and the accumulated output `acc`
(Python `final_chunks`).  The trailing `if current_chunk:` flush is the
`[]` case. -/
def chunkLoop (n : Nat) : List (List Char) → List Char → List (List Char) → List (List Char)
  | [], cur, acc => if cur ≠ [] then acc ++ [strip cur] else acc
  | p :: ps, cur, acc =>
    if strip p = [] then
      chunkLoop n ps cur acc
    else if cur.length + p.length < n then
      chunkLoop n ps (cur ++ p ++ ['\n', '\n']) acc
    else
      let acc1 := if cur ≠ [] then acc ++ [strip cur] else acc
      let cur1 := p ++ ['\n', '\n']
      let r := carveFuel n cur1.length cur1
      chunkLoop n ps r.2 (acc1 ++ r.1)

/-- `SecondBrain._smart_chunk(text, chunk_size)` (the `overlap` parameter is
unused by the source).  Empty text returns no chunks; the final comprehension
`[c for c in final_chunks if c.strip()]` is the filter. -/
def smart_chunk (text : List Char) (n : Nat) : List (List Char) :=
  if text = [] then []
  else (chunkLoop n (splitNN text) [] []).filter (fun c => !(strip c).isEmpty)

/-! ## Indexer: `add_document` -/

/-- A Python dict value as stored in chunk metadata: strings for
`source`/`type`/`created_at`, an int for `chunk_index`. -/
inductive MVal where
  | s (v : List Char)
  | n (v : Nat)
deriving DecidableEq, Repr

/-- A Python dict with string keys, insertion-ordered. -/
abbrev Metadata : Type := List (List Char × MVal)

/-- Python `key in dict`. -/
def mdHasKey (m : Metadata) (k : List Char) : Bool :=
  m.any (fun kv => kv.1 = k)

/-- Python `dict.get(key)` / `dict[key]` as an `Option`. -/
def mdGet (m : Metadata) (k : List Char) : Option MVal :=
  (m.find? (fun kv => kv.1 = k)).map (fun kv => kv.2)

/-- Python `dict[key] = value`: replace in place if present, else append. -/
def mdSet (m : Metadata) (k : List Char) (v : MVal) : Metadata :=
  if mdHasKey m k then m.map (fun kv => if kv.1 = k then (k, v) else kv)
  else m ++ [(k, v)]

def createdAtKey : List Char := "created_at".toList

def chunkIndexKey : List Char := "chunk_index".toList

/-- Result of `add_document`: the caller's metadata dict after the call (the
source mutates it in place, which the embedding renders by returning it), and
the payload passed to `collection.add` — `none` when the zero-chunk early
return fires before the store is touched.  The generated uuid ids are
omitted (opaque fresh names carrying no information checked here). -/
structure AddDocOut where
  callerMetadata : Metadata
  stored : Option (List (List Char) × List Metadata)
deriving DecidableEq

/-- `SecondBrain.add_document(text, metadata)`.  `now` stands for
`datetime.now().isoformat()`. -/
def add_document (text : List Char) (metadata : Metadata) (now : List Char) : AddDocOut :=
  let md := if mdHasKey metadata createdAtKey then metadata
            else mdSet metadata createdAtKey (MVal.s now)
  let chunks := smart_chunk text 1000
  if chunks = [] then ⟨md, none⟩
  else ⟨md, some (chunks, (List.range chunks.length).map (fun i => mdSet md chunkIndexKey (MVal.n i)))⟩

/-! ## Fallback pipeline: string helpers -/

/-- Python `s.split(sep)` for a single-character separator. -/
def splitOnChar (sep : Char) : List Char → List (List Char)
  | [] => [[]]
  | c :: rest =>
    if c = sep then [] :: splitOnChar sep rest
    else consHead c (splitOnChar sep rest)

/-- Python `' '.join(pieces)`. -/
def joinSpace : List (List Char) → List Char
  | [] => []
  | [p] => p
  | p :: ps => p ++ ' ' :: joinSpace ps

/-- Python `re.sub(r'\s+', ' ', s)`: collapse every whitespace run to a
single space. -/
def collapseWS : List Char → List Char
  | [] => []
  | [c] => if isWS c then [' '] else [c]
  | c1 :: c2 :: rest =>
    if isWS c1 then
      if isWS c2 then collapseWS (c2 :: rest)
      else ' ' :: collapseWS (c2 :: rest)
    else c1 :: collapseWS (c2 :: rest)

/-- Helper for `pyWords`: scan with the current word accumulated in
reverse. -/
def pyWordsAux (w : List Char) : List Char → List (List Char)
  | [] => if w = [] then [] else [w.reverse]
  | c :: rest =>
    if isWS c then
      if w = [] then pyWordsAux [] rest else w.reverse :: pyWordsAux [] rest
    else pyWordsAux (c :: w) rest

/-- Python `str.split()` with no argument: split on whitespace runs and drop
empty pieces. -/
def pyWords (l : List Char) : List (List Char) := pyWordsAux [] l

/-- Python `s.lower()` (ASCII case folding, which is what the source's
inputs contain). -/
def lowerL (l : List Char) : List Char := l.map Char.toLower

/-! ## Fallback pipeline: context re-parsing (`_local_fallback` lines 197-239) -/

/-- The check `re.search(r'\([^)]+\)\s*:', line)` behind a `(`: one or more
non-`)` characters, the closing `)`, optional whitespace, then `:`.  Because
`[^)]+` cannot match `)`, the only candidate for `\)` at a given start is the
first `)` after it, so the existence test reduces to this scan. -/
def checkParen (rest : List Char) : Bool :=
  let inner := rest.takeWhile (fun c => c ≠ ')')
  match rest.dropWhile (fun c => c ≠ ')') with
  | ')' :: tl => !inner.isEmpty && ((tl.dropWhile isWS).head? == some ':')
  | _ => false

/-- `re.search(r'\([^)]+\)\s*:', line)` as a truth value: does the pattern
occur anywhere in the line? -/
def hasParenColon : List Char → Bool
  | [] => false
  | '(' :: rest => checkParen rest || hasParenColon rest
  | _ :: rest => hasParenColon rest

/-- The "new document marker" test of the source:
`line_stripped.startswith('-') and re.search(r'\([^)]+\)\s*:', line_stripped)`. -/
def isMarkerLine (ls : List Char) : Bool :=
  ls.head? == some '-' && hasParenColon ls

/-- `re.search(r'\)\s*:\s*(.+)', line)` followed by `.group(1).strip()`:
find the leftmost `)` that is followed (after optional whitespace) by `:`
with at least one character after it, and return everything after that `:`,
stripped.  (Greedy/backtracking `\s*(.+)` always captures a suffix whose
strip equals the strip of the full tail.) -/
def extractContent : List Char → Option (List Char)
  | [] => none
  | ')' :: rest =>
    match rest.dropWhile isWS with
    | ':' :: tl => if tl = [] then extractContent rest else some (strip tl)
    | _ => extractContent rest
  | _ :: rest => extractContent rest

/-- Flush `current_doc` into `doc_texts`: join with spaces, collapse
whitespace, strip, and keep only if strictly longer than 20 characters. -/
def flushDoc (docs : List (List Char)) (cur : List (List Char)) : List (List Char) :=
  if cur = [] then docs
  else
    let combined := strip (collapseWS (joinSpace cur))
    if 20 < combined.length then docs ++ [combined] else docs

/-- The per-line reconstruction loop of `_local_fallback`. -/
def extractLoop : List (List Char) → List (List Char) → List (List Char) → List (List Char)
  | [], docs, cur => flushDoc docs cur
  | line :: rest, docs, cur =>
    let ls := strip line
    if isMarkerLine ls then
      let docs1 := flushDoc docs cur
      let cur1 := match extractContent ls with
        | some content => if content = [] then [] else [content]
        | none => []
      extractLoop rest docs1 cur1
    else
      let cur1 := if ls = [] then cur else cur ++ [ls]
      extractLoop rest docs cur1

/-- `doc_texts` as computed by `_local_fallback` from the formatted context
string (lines 202-237 of the source). -/
def extractDocTexts (context : List Char) : List (List Char) :=
  extractLoop (splitOnChar '\n' context) [] []

/-! ## Fallback pipeline: answer validation and fragments -/

/-- Digits of a number as printed by a Python f-string. -/
def natChars (i : Nat) : List Char := (toString i).toList

/-- The word-overlap ratio of `_local_fallback`'s answer validation:
`len(answer_words & context_words) / max(len(answer_words), 1)` where both
word collections are lowercased, whitespace-split sets. -/
def overlapRatio (answer cc : List Char) : ℚ :=
  let aw := (pyWords (lowerL answer)).dedup
  let cw := (pyWords (lowerL cc)).dedup
  ((aw.filter (fun w => w ∈ cw)).length : ℚ) / ((max aw.length 1 : Nat) : ℚ)

/-- The condition `overlap > 0.7 or len(answer) < 20` that routes the
fallback to its extractive summary instead of the model's answer. -/
def triggersExtractive (answer cc : List Char) : Bool :=
  decide ((7 : ℚ)/10 < overlapRatio answer cc) || decide (answer.length < 20)

/-- `f"{i}. {sent.strip()}.\n\n"` / `f"{shown}. {content[:250]}...\n\n"` cores. -/
def numberedDot (i : Nat) (body : List Char) : List Char :=
  natChars i ++ ". ".toList ++ body

/-- The extractive-summary fragments: the first three `'.'`-separated
sentences of the truncated context, numbered from 1, skipping the ones that
strip to nothing (the enumeration index still advances for those). -/
def summaryLoop : Nat → List (List Char) → List (List Char)
  | _, [] => []
  | i, sent :: rest =>
    if (strip sent).isEmpty then summaryLoop (i + 1) rest
    else (numberedDot i (strip sent) ++ ".\n\n".toList) :: summaryLoop (i + 1) rest

def summaryFrags (cc : List Char) : List (List Char) :=
  summaryLoop 1 ((splitOnChar '.' cc).take 3)

/-- First occurrence of `"]:"` in a line: Python `']:' in line` together
with `line.split(']:', 1)[1]`. -/
def afterBracketColon : List Char → Option (List Char)
  | [] => none
  | ']' :: ':' :: rest => some rest
  | _ :: rest => afterBracketColon rest

/-- The `except`-handler loop of `_local_fallback` (lines 302-313): up to
three context lines containing `"]:"`, each yielding a numbered 250-character
excerpt of the text after the marker. -/
def exceptLoop : Nat → List (List Char) → List (List Char)
  | _, [] => []
  | shown, line :: rest =>
    if 3 ≤ shown then []
    else if (strip line).isEmpty then exceptLoop shown rest
    else
      match afterBracketColon line with
      | none => exceptLoop shown rest
      | some after =>
        if (strip after).isEmpty then exceptLoop shown rest
        else (numberedDot (shown + 1) ((strip after).take 250) ++ "...\n\n".toList)
          :: exceptLoop (shown + 1) rest

def exceptFrags (ctx : List Char) : List (List Char) :=
  exceptLoop 0 (splitOnChar '\n' (strip ctx))

/-! ## Fallback pipeline: fixed fragments -/

def noDocsFrag : List Char :=
  "I couldn't find any relevant documents in your Second Brain.".toList

def modelLoadErrFrag : List Char :=
  "**Error: Local model failed to load at startup. Please restart the app.**\n\n".toList

def rawCtx500 (ctx : List Char) : List Char :=
  "Raw context:\n".toList ++ ctx.take 500 ++ "...".toList

def activeFrag : List Char := "**(Local Fallback Model Active)**\n\n".toList

def cantExtractFrag : List Char :=
  "I found documents but couldn't extract their content properly.\n\n".toList

def rawCtx300 (ctx : List Char) : List Char :=
  "Raw context:\n".toList ++ ctx.take 300 ++ "...".toList

def summaryHeaderFrag : List Char := "**Summary from your documents:**\n\n".toList

def basedOnFrag : List Char := "**Based on your documents:**\n\n".toList

def sourceCountFrag (k : Nat) : List Char :=
  "*Source: ".toList ++ natChars k ++ " document(s) from your Second Brain*".toList

def apiKeyMissingFrag (ctx : List Char) : List Char :=
  "**⚠️ API Key Missing. Context:**\n\n".toList ++ ctx

/-- The second, explicit prompt `_local_fallback` builds for the local
model. -/
def localPrompt (cc query : List Char) : List Char :=
  "Based on the information below, answer this question in your own words. Do not copy the text directly.\n\nInformation: ".toList
    ++ cc
    ++ "\n\nQuestion: ".toList
    ++ query
    ++ "\n\nWrite a clear answer using different words than the information above:".toList

/-! ## Generation orchestrator -/

/-- Behaviour of the local generation capability.  `unavailable` is
`self.local_model is None` (failed preload); `available infer` wraps one
invocation of the pipeline, whose raw generated text may be any string or an
exception (`Except.error`), covering "local inference throwing". -/
inductive LocalModel where
  | unavailable
  | available (infer : List Char → Except Unit (List Char))

/-- Behaviour of one drained run of the primary model's stream:
either it completes, yielding `frags`, or it raises (at call setup or
mid-stream) after yielding `frags`. -/
inductive PrimaryBehaviour where
  | okStream (frags : List (List Char))
  | failAfter (frags : List (List Char))

/-- What the caller observes after draining a generator: the fragments
yielded, whether the local model was actually invoked, and whether an
exception escaped to the caller.  Every raising operation of the source
(the primary stream, the local-model call) is explicit in the behaviour
arguments, and the translation routes each one through the `try/except`
that guards it in the source, so `raised` records exactly the raises that
no handler catches. -/
structure GenOut where
  frags : List (List Char)
  localInvoked : Bool
  raised : Bool

/-- `SecondBrain._local_fallback(context, user_query)`, drained to a list.
The body's `try:` covers everything from the `local_model is None` check to
the final yields; its only raising operation is the local-model invocation,
whose `Except.error` lands in the `except`-handler (lines 296-313).  The
fragments yielded before that raise (the "(Local Fallback Model Active)"
banner) had already reached the caller and stay in the output. -/
def local_fallback (lm : LocalModel) (ctx query : List Char) : GenOut :=
  if ctx = [] then ⟨[noDocsFrag], false, false⟩
  else
    match lm with
    | LocalModel.unavailable => ⟨[modelLoadErrFrag, rawCtx500 ctx], false, false⟩
    | LocalModel.available infer =>
      let docs := extractDocTexts ctx
      if docs = [] then ⟨[activeFrag, cantExtractFrag, rawCtx300 ctx], false, false⟩
      else
        let cc := (joinSpace docs).take 300
        match infer (localPrompt cc query) with
        | Except.error _ => ⟨activeFrag :: basedOnFrag :: exceptFrags ctx, true, false⟩
        | Except.ok raw =>
          let answer := strip raw
          if triggersExtractive answer cc then
            ⟨activeFrag :: summaryHeaderFrag :: summaryFrags cc, true, false⟩
          else
            ⟨[activeFrag, answer ++ "\n\n".toList, sourceCountFrag docs.length], true, false⟩

/-- The `stream_generator` closure inside `SecondBrain.query`, drained to a
list.  `client = none` is the missing-credential path; a primary failure at
any point is caught by the `except` and delegates to `_local_fallback`,
keeping the fragments the primary had already yielded. -/
def stream_generator (client : Option PrimaryBehaviour) (lm : LocalModel)
    (ctx query : List Char) : GenOut :=
  match client with
  | none => ⟨[apiKeyMissingFrag ctx], false, false⟩
  | some (PrimaryBehaviour.okStream fs) => ⟨fs, false, false⟩
  | some (PrimaryBehaviour.failAfter fs) =>
    let fb := local_fallback lm ctx query
    ⟨fs ++ fb.frags, fb.localInvoked, fb.raised⟩

/-! ## Concrete inputs referenced by the verification -/

/-- The spec's context-reconstruction scenario input. -/
def ctxScenario : List Char :=
  "- [2024-01-01] (a.txt): Hello world.\n- [2024-01-02] (b.txt): Goodbye world.".toList

/-- A 19-character answer of ten distinct words. -/
def overlapAns0 : List Char := "a b c d e f g h i j".toList

/-- A source text containing exactly seven of `overlapAns0`'s ten words. -/
def overlapCtx0 : List Char := "a b c d e f g".toList

/-- `k` distinct two-digit words. -/
def wordList (k : Nat) : List (List Char) :=
  (List.range k).map (fun i => [Char.ofNat (48 + i / 10), Char.ofNat (48 + i % 10)])

/-- A 100-distinct-word answer. -/
def overlapAnsB : List Char := joinSpace (wordList 100)

/-- A source text containing exactly 71 of `overlapAnsB`'s 100 words. -/
def overlapCtxB : List Char := joinSpace (wordList 71)

/-- A 29-character answer of ten distinct words. -/
def overlapAnsA : List Char := "aw bw cw dw ew fw gw hw iw jw".toList

/-- A source text containing exactly seven of `overlapAnsA`'s ten words. -/
def overlapCtxA : List Char := "aw bw cw dw ew fw gw".toList

/-- The non-whitespace characters of a string, in order: the residue that
whitespace normalization preserves. -/
def content (l : List Char) : List Char := l.filter (fun c => !isWS c)

/-- Rejoin paragraph pieces with the `"\n\n"` separator (the inverse
direction of `splitNN`). -/
def joinNN : List (List Char) → List Char
  | [] => []
  | [p] => p
  | p :: ps => p ++ '\n' :: '\n' :: joinNN ps

/-- The non-whitespace characters contributed by a list of chunks. -/
def contentAll (cs : List (List Char)) : List Char := (cs.map content).flatten

/-! ## Predicates used by the idempotence development -/

/-- No `"\n\n"` occurs inside `l` (paragraph-separator-free). -/
def nnFree (l : List Char) : Prop := ¬ ['\n', '\n'] <:+: l

/-- `l` ends with a newline. -/
def endsNL (l : List Char) : Prop := l.getLast? = some '\n'

/-- Every `"\n\n"`-piece of `l` survives stripping: the shape an
accumulated buffer flush must have for re-chunking to reassemble it. -/
def GoodParts (c : List Char) : Prop := ∀ q ∈ splitNN c, strip q ≠ []

/-- The buffer built from pieces, each suffixed by the `"\n\n"` the chunk
loop appends. -/
def joinMap (qs : List (List Char)) : List Char :=
  (qs.map (fun q => q ++ ['\n', '\n'])).flatten

/-- Characterization of every chunk `_smart_chunk` can emit (before the
final emptiness filter): a fixed point of `strip` that is either shorter
than `chunk_size` with re-splittable pieces, or exactly `chunk_size` with
no newline and no space (the hard-cut case). -/
def NiceChunk (n : Nat) (c : List Char) : Prop :=
  strip c = c
  ∧ (c = [] ∨ (c.length < n ∧ GoodParts c)
      ∨ (c.length = n ∧ '\n' ∉ c ∧ ' ' ∉ c))

/-- Invariant tying the running buffer to the parts still to process. -/
def BufShape (ps : List (List Char)) (cur : List Char) : Prop :=
  cur = ['\n']
  ∨ ∃ qs, cur = joinMap qs
      ∧ (∀ q ∈ qs, nnFree q)
      ∧ (∀ q ∈ qs.tail, strip q ≠ [])
      ∧ (∀ q ∈ qs.dropLast, ¬ endsNL q)
      ∧ (∀ q, qs.getLast? = some q → (¬ endsNL q ∨ ∀ r ∈ ps, strip r = []))

/-! ## Helper lemmas -/

theorem mdFind_none_of_hasKey_false (m : Metadata) (k : List Char)
    (h : mdHasKey m k = false) : m.find? (fun kv => kv.1 = k) = none := by
  induction m with
  | nil => rfl
  | cons kv m ih =>
    simp only [mdHasKey, List.any_cons, Bool.or_eq_false_iff] at h
    rw [List.find?_cons_of_neg, ih]
    · simp only [mdHasKey]
      exact h.2
    · simp [h.1]

theorem mdGet_append_single_self (m : Metadata) (k : List Char) (v : MVal)
    (h : mdHasKey m k = false) : mdGet (m ++ [(k, v)]) k = some v := by
  induction m with
  | nil => simp [mdGet]
  | cons kv m ih =>
    simp only [mdHasKey, List.any_cons, Bool.or_eq_false_iff] at h
    simp only [mdGet, List.cons_append]
    rw [List.find?_cons_of_neg]
    · exact ih h.2
    · simp [h.1]

theorem mdGet_append_single_ne (m : Metadata) (k k' : List Char) (v : MVal)
    (h : k ≠ k') : mdGet (m ++ [(k, v)]) k' = mdGet m k' := by
  induction m with
  | nil => simp [mdGet, h]
  | cons kv m ih =>
    simp only [mdGet, List.cons_append, List.find?_cons] at ih ⊢
    by_cases hk : kv.1 = k'
    · simp [hk]
    · simp only [hk, decide_False, Bool.false_eq_true, if_false]
      exact ih

theorem local_fallback_frags_ne_nil (lm : LocalModel) (ctx q : List Char) :
    (local_fallback lm ctx q).frags ≠ [] := by
  by_cases hc : ctx = []
  · simp [local_fallback, hc]
  cases lm with
  | unavailable => simp [local_fallback, hc]
  | available infer =>
    by_cases hd : extractDocTexts ctx = []
    · simp [local_fallback, hc, hd]
    cases hinf : infer (localPrompt (List.take 300 (joinSpace (extractDocTexts ctx))) q) with
    | error e => simp [local_fallback, hc, hd, hinf]
    | ok raw =>
      by_cases ht : triggersExtractive (strip raw)
          (List.take 300 (joinSpace (extractDocTexts ctx))) = true <;>
        simp [local_fallback, hc, hd, hinf, ht]

theorem local_fallback_raised_false (lm : LocalModel) (ctx q : List Char) :
    (local_fallback lm ctx q).raised = false := by
  by_cases hc : ctx = []
  · simp [local_fallback, hc]
  cases lm with
  | unavailable => simp [local_fallback, hc]
  | available infer =>
    by_cases hd : extractDocTexts ctx = []
    · simp [local_fallback, hc, hd]
    cases hinf : infer (localPrompt (List.take 300 (joinSpace (extractDocTexts ctx))) q) with
    | error e => simp [local_fallback, hc, hd, hinf]
    | ok raw =>
      by_cases ht : triggersExtractive (strip raw)
          (List.take 300 (joinSpace (extractDocTexts ctx))) = true <;>
        simp [local_fallback, hc, hd, hinf, ht]

/-! ## Claim C9 -/

/-- C9: `add_document("")` and `add_document("   ")` store nothing: chunking
yields zero chunks, the early return fires before `collection.add`, and the
embedding (a total function) returns normally. -/
theorem c9_empty_add_document_noop (metadata : Metadata) (now : List Char) :
    (add_document "".toList metadata now).stored = none
    ∧ (add_document "   ".toList metadata now).stored = none := by
  have h1 : smart_chunk ([] : List Char) 1000 = [] := by decide
  have h2 : smart_chunk [' ', ' ', ' '] 1000 = [] := by decide
  constructor <;> simp [add_document, h1, h2]

/-! ## Claim C10 -/

/-- C10: when the caller's metadata lacks `"created_at"`, `add_document`
mutates the caller's dict by appending that key (even when zero chunks are
produced and nothing is stored), and every other key keeps its value. -/
theorem c10_metadata_created_at_mutation (text : List Char) (metadata : Metadata)
    (now : List Char) (h : mdHasKey metadata createdAtKey = false) :
    (add_document text metadata now).callerMetadata
        = metadata ++ [(createdAtKey, MVal.s now)]
    ∧ mdGet (add_document text metadata now).callerMetadata createdAtKey
        = some (MVal.s now)
    ∧ (∀ k, k ≠ createdAtKey →
        mdGet (add_document text metadata now).callerMetadata k = mdGet metadata k)
    ∧ (smart_chunk text 1000 = [] → (add_document text metadata now).stored = none) := by
  have hmeta : (add_document text metadata now).callerMetadata
      = metadata ++ [(createdAtKey, MVal.s now)] := by
    unfold add_document
    simp only [h, Bool.false_eq_true, if_false, mdSet]
    split <;> rfl
  refine ⟨hmeta, ?_, ?_, ?_⟩
  · rw [hmeta]
    exact mdGet_append_single_self metadata createdAtKey (MVal.s now) h
  · intro k hk
    rw [hmeta]
    exact mdGet_append_single_ne metadata createdAtKey k (MVal.s now) (fun e => hk e.symm)
  · intro hc
    unfold add_document
    simp [hc]

/-- Witness for C10 at a concrete call. -/
theorem c10_metadata_created_at_mutation_witness :
    (add_document "".toList [("source".toList, MVal.s "a".toList)] "2024".toList).callerMetadata
        = [("source".toList, MVal.s "a".toList)] ++ [(createdAtKey, MVal.s "2024".toList)]
    ∧ (add_document "".toList [("source".toList, MVal.s "a".toList)] "2024".toList).stored
        = none :=
  ⟨(c10_metadata_created_at_mutation "".toList [("source".toList, MVal.s "a".toList)]
      "2024".toList (by decide)).1,
   (c10_metadata_created_at_mutation "".toList [("source".toList, MVal.s "a".toList)]
      "2024".toList (by decide)).2.2.2 (by decide)⟩

/-! ## Claim C4 -/

/-- C4 counterexample: with an empty retrieved context but no configured
credential, the sequence yields exactly one fragment, yet it is the
API-key-missing notice, not the "no relevant documents" message the claim
requires for *every* empty-context query. -/
theorem c4_empty_context_counterexample :
    (stream_generator none LocalModel.unavailable [] []).frags ≠ [noDocsFrag]
    ∧ (stream_generator none LocalModel.unavailable [] []).frags.length = 1 := by
  constructor
  · decide
  · rfl

/-- C4 amended: for every query with empty retrieved context *that reaches
the local fallback* (primary attempted and failed), the fallback yields
exactly the fixed "no relevant documents" fragment, never invokes the local
model, and the full drained sequence is the primary's partial output followed
by that fragment. -/
theorem c4_empty_context_fallback (lm : LocalModel) (q : List Char)
    (fs : List (List Char)) :
    local_fallback lm [] q
        = ⟨[noDocsFrag], false, false⟩
    ∧ (stream_generator (some (PrimaryBehaviour.failAfter fs)) lm [] q).frags
        = fs ++ [noDocsFrag]
    ∧ (stream_generator (some (PrimaryBehaviour.failAfter fs)) lm [] q).localInvoked
        = false := by
  refine ⟨by simp [local_fallback], ?_, ?_⟩ <;> simp [stream_generator, local_fallback]

/-! ## Claim C8 -/

/-- C8 counterexample: a primary stream that succeeds after yielding zero
fragments produces an empty drained sequence, so not every terminating
execution yields a fragment. -/
theorem c8_empty_primary_counterexample :
    (stream_generator (some (PrimaryBehaviour.okStream [])) LocalModel.unavailable
      "x".toList []).frags = [] := rfl

/-- C8 amended: every terminating execution of the drained `query` sequence
yields at least one fragment, except the one path where the primary stream
succeeds while itself yielding no fragments (there the output is exactly the
primary's empty output). -/
theorem c8_nonempty_output (client : Option PrimaryBehaviour) (lm : LocalModel)
    (ctx q : List Char) (h : client ≠ some (PrimaryBehaviour.okStream [])) :
    (stream_generator client lm ctx q).frags ≠ [] := by
  match client with
  | none => simp [stream_generator]
  | some (PrimaryBehaviour.okStream fs) =>
    have hfs : fs ≠ [] := by
      intro e
      exact h (by rw [e])
    simpa [stream_generator] using hfs
  | some (PrimaryBehaviour.failAfter fs) =>
    simp [stream_generator]
    intro _
    exact local_fallback_frags_ne_nil lm ctx q

/-- Witness for C8 at a concrete behaviour. -/
theorem c8_nonempty_output_witness :
    some (PrimaryBehaviour.failAfter []) ≠ some (PrimaryBehaviour.okStream [])
    ∧ (stream_generator (some (PrimaryBehaviour.failAfter [])) LocalModel.unavailable
        [] []).frags ≠ [] :=
  ⟨by simp, c8_nonempty_output (some (PrimaryBehaviour.failAfter []))
    LocalModel.unavailable [] [] (by simp)⟩

/-! ## Claim C1 -/

/-- C1 counterexample: on the scenario context the per-document
reconstruction of `_local_fallback` does *not* produce the two texts
`"Hello world."` and `"Goodbye world."` — both records fail the
`len(combined) > 20` filter. -/
theorem c1_scenario_counterexample :
    ¬ (extractDocTexts ctxScenario
        = ["Hello world.".toList, "Goodbye world.".toList]) := by
  decide

/-- C1 amended: on the scenario context the reconstruction produces *zero*
document texts (the two parsed records, 12 and 14 characters, are discarded
by the strictly-greater-than-20 length filter), so the fallback yields the
could-not-parse notice with a raw excerpt and never invokes the local
model. -/
theorem c1_scenario_reconstruction (infer : List Char → Except Unit (List Char))
    (q : List Char) :
    extractDocTexts ctxScenario = []
    ∧ local_fallback (LocalModel.available infer) ctxScenario q
        = ⟨[activeFrag, cantExtractFrag, rawCtx300 ctxScenario], false, false⟩ := by
  have hd : extractDocTexts ctxScenario = [] := by decide
  have hc : ctxScenario ≠ [] := by decide
  exact ⟨hd, by simp [local_fallback, hd, hc]⟩

/-! ## Claim C2 -/

theorem overlapRatio_eq (a c : List Char) (k d : Nat)
    (hk : ((pyWords (lowerL a)).dedup.filter
        (fun w => w ∈ (pyWords (lowerL c)).dedup)).length = k)
    (hd : max (pyWords (lowerL a)).dedup.length 1 = d) :
    overlapRatio a c = (k : ℚ) / (d : ℚ) := by
  simp only [overlapRatio]
  rw [hk, hd]

/-- C2 counterexample: the ten-word answer `"a b c d e f g h i j"` scores a
word-overlap ratio of exactly 7/10 against the source `"a b c d e f g"`,
yet it *does* trigger the extractive fallback, because its 19 characters
satisfy the `len(answer) < 20` disjunct of the trigger condition. -/
theorem c2_overlap_boundary_counterexample :
    overlapRatio overlapAns0 overlapCtx0 = 7/10
    ∧ triggersExtractive overlapAns0 overlapCtx0 = true := by
  constructor
  · rw [overlapRatio_eq overlapAns0 overlapCtx0 7 10 (by decide) (by decide)]
    norm_num
  · unfold triggersExtractive
    rw [Bool.or_eq_true]
    right
    decide

/-- C2 amended: an answer whose overlap ratio is exactly 0.70 *and whose
length is at least 20 characters* does not trigger the extractive fallback
(the threshold is a strict `>`), while a ratio of 0.71 always triggers it —
an answer under 20 characters triggers it regardless of ratio. -/
theorem c2_overlap_boundary (answer cc : List Char) :
    (overlapRatio answer cc = 7/10 → 20 ≤ answer.length →
      triggersExtractive answer cc = false)
    ∧ (overlapRatio answer cc = 71/100 → triggersExtractive answer cc = true) := by
  constructor
  · intro hr hl
    unfold triggersExtractive
    rw [hr, Bool.or_eq_false_iff]
    refine ⟨by simp, ?_⟩
    simpa using hl
  · intro hr
    unfold triggersExtractive
    rw [hr, Bool.or_eq_true]
    left
    rw [decide_eq_true_iff]
    norm_num

set_option maxRecDepth 4000 in
/-- Witness for C2 at concrete answers on both sides of the boundary. -/
theorem c2_overlap_boundary_witness :
    overlapRatio overlapAnsA overlapCtxA = 7/10
    ∧ 20 ≤ overlapAnsA.length
    ∧ triggersExtractive overlapAnsA overlapCtxA = false
    ∧ overlapRatio overlapAnsB overlapCtxB = 71/100
    ∧ triggersExtractive overlapAnsB overlapCtxB = true := by
  have hA : overlapRatio overlapAnsA overlapCtxA = 7/10 := by
    rw [overlapRatio_eq overlapAnsA overlapCtxA 7 10 (by decide) (by decide)]
    norm_num
  have hB : overlapRatio overlapAnsB overlapCtxB = 71/100 := by
    rw [overlapRatio_eq overlapAnsB overlapCtxB 71 100 (by decide) (by decide)]
    norm_num
  exact ⟨hA, by decide, (c2_overlap_boundary overlapAnsA overlapCtxA).1 hA (by decide),
         hB, (c2_overlap_boundary overlapAnsB overlapCtxB).2 hB⟩

/-! ## Claim C3 -/

/-- C3: no behaviour of the primary or local capability makes an exception
escape the drained sequence — every raising operation of the source sits
inside a `try/except`, and each failure mode is converted into notice or
content fragments (missing credential, primary failure with unavailable
local model, and local inference raising are spelled out). -/
theorem c3_generation_failures_contained (client : Option PrimaryBehaviour)
    (lm : LocalModel) (ctx q : List Char) :
    (stream_generator client lm ctx q).raised = false
    ∧ (client = none →
        (stream_generator client lm ctx q).frags = [apiKeyMissingFrag ctx])
    ∧ (∀ fs, client = some (PrimaryBehaviour.failAfter fs) → ctx ≠ [] →
        lm = LocalModel.unavailable →
        (stream_generator client lm ctx q).frags
          = fs ++ [modelLoadErrFrag, rawCtx500 ctx])
    ∧ (∀ fs infer, client = some (PrimaryBehaviour.failAfter fs) → ctx ≠ [] →
        lm = LocalModel.available infer → extractDocTexts ctx ≠ [] →
        infer (localPrompt ((joinSpace (extractDocTexts ctx)).take 300) q)
          = Except.error () →
        (stream_generator client lm ctx q).frags
          = fs ++ activeFrag :: basedOnFrag :: exceptFrags ctx) := by
  refine ⟨?_, ?_, ?_, ?_⟩
  · match client with
    | none => rfl
    | some (PrimaryBehaviour.okStream fs) => rfl
    | some (PrimaryBehaviour.failAfter fs) =>
      simpa [stream_generator] using local_fallback_raised_false lm ctx q
  · intro h
    subst h
    rfl
  · intro fs h hc hl
    subst h
    subst hl
    simp [stream_generator, local_fallback, hc]
  · intro fs infer h hc hl hd hinf
    subst h
    subst hl
    simp [stream_generator, local_fallback, hc, hd, hinf]

/-- Witness for C3 at a concrete failing behaviour. -/
theorem c3_generation_failures_contained_witness :
    (stream_generator (some (PrimaryBehaviour.failAfter [])) LocalModel.unavailable
        ['a'] []).raised = false
    ∧ (stream_generator (some (PrimaryBehaviour.failAfter [])) LocalModel.unavailable
        ['a'] []).frags = [] ++ [modelLoadErrFrag, rawCtx500 ['a']] := by
  have h := c3_generation_failures_contained (some (PrimaryBehaviour.failAfter []))
    LocalModel.unavailable ['a'] []
  exact ⟨h.1, h.2.2.1 [] rfl (by simp) rfl⟩

/-! ## Chunker lemmas: strip -/

theorem trimL_suffix (l : List Char) : trimL l <:+ l := List.dropWhile_suffix isWS

theorem trimR_pre (l : List Char) : trimR l <+: l := by
  have h : l.reverse.dropWhile isWS <:+ l.reverse := List.dropWhile_suffix isWS
  have h2 : (l.reverse.dropWhile isWS).reverse <+: l.reverse.reverse :=
    List.reverse_prefix.mpr h
  simpa [trimR] using h2

theorem trimL_length_le (l : List Char) : (trimL l).length ≤ l.length :=
  (trimL_suffix l).sublist.length_le

theorem trimR_length_le (l : List Char) : (trimR l).length ≤ l.length :=
  (trimR_pre l).sublist.length_le

theorem strip_length_le (l : List Char) : (strip l).length ≤ l.length :=
  le_trans (trimR_length_le (trimL l)) (trimL_length_le l)

theorem trimR_snoc_ws (l : List Char) (c : Char) (hc : isWS c = true) :
    trimR (l ++ [c]) = trimR l := by
  simp [trimR, hc]

theorem trimL_nil_iff (l : List Char) : trimL l = [] ↔ ∀ x ∈ l, isWS x = true := by
  simp [trimL, List.dropWhile_eq_nil_iff]

theorem strip_snoc_ws (l : List Char) (c : Char) (hc : isWS c = true) :
    strip (l ++ [c]) = strip l := by
  unfold strip
  by_cases h : trimL l = []
  · have hall : ∀ x ∈ l, isWS x = true := (trimL_nil_iff l).mp h
    have h2 : trimL (l ++ [c]) = [] := by
      rw [trimL_nil_iff]
      intro x hx
      rcases List.mem_append.mp hx with hx | hx
      · exact hall x hx
      · simp at hx
        subst hx
        exact hc
    rw [h, h2]
  · have h' : List.dropWhile isWS l ≠ [] := by simpa [trimL] using h
    have h2 : trimL (l ++ [c]) = trimL l ++ [c] := by
      simp only [trimL, List.dropWhile_append]
      rw [if_neg]
      simpa using h'
    rw [h2, trimR_snoc_ws _ _ hc]

theorem strip_append_allWS (l w : List Char) (hw : ∀ x ∈ w, isWS x = true) :
    strip (l ++ w) = strip l := by
  induction w generalizing l with
  | nil => simp
  | cons c w ih =>
    have h1 : l ++ c :: w = (l ++ [c]) ++ w := by simp
    rw [h1, ih (l ++ [c]) (fun x hx => hw x (List.mem_cons_of_mem c hx)),
      strip_snoc_ws l c (hw c (List.mem_cons_self c w))]

/-! ## Chunker lemmas: the separator search -/

theorem rfindSep_some_bound (sep l : List Char) (m : Nat)
    (h : rfindSep sep l = some m) : m + sep.length ≤ l.length := by
  unfold rfindSep at h
  have hp := List.find?_some h
  simp only [List.isPrefixOf_iff_prefix] at hp
  have hpre : sep <+: l.drop m := hp
  have hlen := hpre.sublist.length_le
  have hm : m ∈ (List.range (l.length + 1)).reverse := List.mem_of_find?_eq_some h
  simp only [List.mem_reverse, List.mem_range] at hm
  simp only [List.length_drop] at hlen
  omega

theorem findSplitIdx_le (n : Nat) (cur : List Char) : findSplitIdx n cur ≤ n := by
  have hw : (cur.take n).length ≤ n := by
    simp only [List.length_take]
    omega
  simp only [findSplitIdx]
  split
  · next m h => have := rfindSep_some_bound _ _ _ h; simp at this; omega
  split
  · next m h => have := rfindSep_some_bound _ _ _ h; simp at this; omega
  split
  · next m h => have := rfindSep_some_bound _ _ _ h; simp at this; omega
  split
  · next m h => have := rfindSep_some_bound _ _ _ h; simp at this; omega
  split
  · next m h => have := rfindSep_some_bound _ _ _ h; simp at this; omega
  · exact hw

theorem findSplitIdx_pos (n : Nat) (cur : List Char) (h : n < cur.length)
    (hn : 1 ≤ n) : 1 ≤ findSplitIdx n cur := by
  unfold findSplitIdx
  split
  · omega
  split
  · omega
  split
  · omega
  split
  · omega
  split
  · omega
  · simp only [List.length_take]
    omega

/-! ## Chunker lemmas: the carve loop -/

theorem carveFuel_bounds (n : Nat) (hn : 1 ≤ n) :
    ∀ fuel cur, cur.length ≤ fuel →
      (∀ c ∈ (carveFuel n fuel cur).1, c.length ≤ n)
      ∧ (carveFuel n fuel cur).2.length ≤ n := by
  intro fuel
  induction fuel with
  | zero =>
    intro cur hlen
    have : cur = [] := List.length_eq_zero.mp (Nat.le_zero.mp hlen)
    subst this
    exact ⟨by simp [carveFuel], by simp [carveFuel]⟩
  | succ fuel ih =>
    intro cur hlen
    by_cases h : n < cur.length
    · have hidx1 : 1 ≤ findSplitIdx n cur := findSplitIdx_pos n cur h hn
      have hidxn : findSplitIdx n cur ≤ n := findSplitIdx_le n cur
      have hrec := ih (cur.drop (findSplitIdx n cur))
        (by simp only [List.length_drop]; omega)
      simp only [carveFuel, h, if_true]
      refine ⟨?_, hrec.2⟩
      intro c hc
      rcases List.mem_cons.mp hc with hc | hc
      · subst hc
        calc (strip (cur.take (findSplitIdx n cur))).length
            ≤ (cur.take (findSplitIdx n cur)).length := strip_length_le _
          _ ≤ n := by simp only [List.length_take]; omega
      · exact hrec.1 c hc
    · simp only [carveFuel, h, if_false]
      exact ⟨by simp, by omega⟩

/-! ## Claim C5 -/

theorem chunkLoop_length_le (n : Nat) (hn : 1 ≤ n) :
    ∀ ps cur acc, (∀ c ∈ acc, c.length ≤ n) → (strip cur).length ≤ n →
      ∀ c ∈ chunkLoop n ps cur acc, c.length ≤ n := by
  intro ps
  induction ps with
  | nil =>
    intro cur acc hacc hcur c hc
    unfold chunkLoop at hc
    split at hc
    · rcases List.mem_append.mp hc with hc | hc
      · exact hacc c hc
      · simp at hc
        subst hc
        exact hcur
    · exact hacc c hc
  | cons p ps ih =>
    intro cur acc hacc hcur c hc
    unfold chunkLoop at hc
    split at hc
    · exact ih cur acc hacc hcur c hc
    · split at hc
      · next hfit =>
        refine ih _ acc hacc ?_ c hc
        calc (strip (cur ++ p ++ ['\n', '\n'])).length
            = (strip (cur ++ p)).length := by
              rw [show cur ++ p ++ ['\n', '\n'] = (cur ++ p) ++ ['\n', '\n'] by simp,
                strip_append_allWS (cur ++ p) ['\n', '\n'] (by intro x hx; simp at hx; subst hx; rfl)]
          _ ≤ (cur ++ p).length := strip_length_le _
          _ ≤ n := by simp at hfit ⊢; omega
      · have hcarve := carveFuel_bounds n hn (p ++ ['\n', '\n']).length (p ++ ['\n', '\n'])
          le_rfl
        refine ih _ _ ?_ ?_ c hc
        · intro c' hc'
          rcases List.mem_append.mp hc' with hc' | hc'
          · split at hc'
            · rcases List.mem_append.mp hc' with hc' | hc'
              · exact hacc c' hc'
              · simp at hc'
                subst hc'
                exact hcur
            · exact hacc c' hc'
          · exact hcarve.1 c' hc'
        · exact le_trans (strip_length_le _) hcarve.2

/-- C5 (strengthened form): for every input text and every positive
`chunk_size`, *no* chunk produced by `_smart_chunk` exceeds `chunk_size`
characters — the exception the claim allows for hard cuts never materializes,
because the always-matching `""` separator caps even the hard-cut prefix at
exactly `chunk_size`.  (`chunk_size = 0` is excluded: there the source's
`while` loop never terminates.) -/
theorem c5_chunk_size_bound (text : List Char) (n : Nat) (hn : 1 ≤ n) :
    ∀ c ∈ smart_chunk text n, c.length ≤ n := by
  intro c hc
  unfold smart_chunk at hc
  split at hc
  · simp at hc
  · exact chunkLoop_length_le n hn (splitNN text) [] [] (by simp) (by simp [strip, trimL, trimR]) c
      (List.mem_of_mem_filter hc)

/-- Witness for C5 at a concrete input. -/
theorem c5_chunk_size_bound_witness :
    (1 ≤ 10 ∧ ∀ c ∈ smart_chunk "hello world this is a test. of chunks".toList 10,
      c.length ≤ 10) :=
  ⟨by omega, c5_chunk_size_bound "hello world this is a test. of chunks".toList 10 (by omega)⟩

/-! ## Chunker lemmas: content preservation -/

theorem isWS_nl : isWS '\n' = true := rfl

theorem content_append (a b : List Char) : content (a ++ b) = content a ++ content b := by
  simp [content]

theorem content_nl_nl : content ['\n', '\n'] = [] := rfl

theorem content_dropWhileWS (l : List Char) : content (l.dropWhile isWS) = content l := by
  induction l with
  | nil => rfl
  | cons c l ih =>
    by_cases h : isWS c = true
    · rw [List.dropWhile_cons_of_pos h]
      rw [ih]
      simp [content, List.filter_cons, h]
    · rw [List.dropWhile_cons_of_neg (by simp [h])]

theorem content_reverse (l : List Char) : content l.reverse = (content l).reverse := by
  simp [content]

theorem content_trimL (l : List Char) : content (trimL l) = content l :=
  content_dropWhileWS l

theorem content_trimR (l : List Char) : content (trimR l) = content l := by
  unfold trimR
  rw [content_reverse, content_dropWhileWS, content_reverse, List.reverse_reverse]

theorem content_strip (l : List Char) : content (strip l) = content l := by
  unfold strip
  rw [content_trimR, content_trimL]

theorem content_nil_of_strip_nil (l : List Char) (h : strip l = []) : content l = [] := by
  rw [← content_strip, h]
  rfl

theorem splitNN_ne_nil (l : List Char) : splitNN l ≠ [] := by
  match l with
  | [] => simp [splitNN]
  | [c] => simp [splitNN]
  | c1 :: c2 :: rest =>
    unfold splitNN
    split
    · simp
    · match h : splitNN (c2 :: rest) with
      | [] => exact absurd h (splitNN_ne_nil (c2 :: rest))
      | p :: ps => simp [consHead]

theorem joinNN_consHead (c : Char) (ps : List (List Char)) (h : ps ≠ []) :
    joinNN (consHead c ps) = c :: joinNN ps := by
  match ps with
  | [] => exact absurd rfl h
  | [p] => rfl
  | p :: p2 :: ps => rfl

theorem joinNN_splitNN (l : List Char) : joinNN (splitNN l) = l := by
  match l with
  | [] => rfl
  | [c] => rfl
  | c1 :: c2 :: rest =>
    unfold splitNN
    split
    · next hnl =>
      obtain ⟨h1, h2⟩ := hnl
      subst h1
      subst h2
      match h : splitNN rest with
      | [] => exact absurd h (splitNN_ne_nil rest)
      | p :: ps =>
        have ih := joinNN_splitNN rest
        rw [h] at ih
        show [] ++ '\n' :: '\n' :: joinNN (p :: ps) = '\n' :: '\n' :: rest
        rw [ih]
        rfl
    · have ih := joinNN_splitNN (c2 :: rest)
      rw [joinNN_consHead c1 (splitNN (c2 :: rest)) (splitNN_ne_nil _), ih]

theorem contentAll_append (a b : List (List Char)) :
    contentAll (a ++ b) = contentAll a ++ contentAll b := by
  simp [contentAll]

theorem contentAll_joinNN (ps : List (List Char)) : content (joinNN ps) = contentAll ps := by
  match ps with
  | [] => rfl
  | [p] => simp [joinNN, contentAll]
  | p :: p2 :: ps =>
    have ih := contentAll_joinNN (p2 :: ps)
    show content (p ++ '\n' :: '\n' :: joinNN (p2 :: ps)) = contentAll (p :: p2 :: ps)
    rw [content_append]
    have h2 : content ('\n' :: '\n' :: joinNN (p2 :: ps)) = content (joinNN (p2 :: ps)) := by
      simp [content, List.filter_cons, isWS_nl]
    rw [h2, ih]
    simp [contentAll]

theorem contentAll_splitNN (l : List Char) : contentAll (splitNN l) = content l := by
  rw [← contentAll_joinNN, joinNN_splitNN]

/-! ## Chunker lemmas: `chunkLoop` unfolding equations -/

theorem chunkLoop_nil (n : Nat) (cur : List Char) (acc : List (List Char)) :
    chunkLoop n [] cur acc = if cur ≠ [] then acc ++ [strip cur] else acc := rfl

theorem chunkLoop_cons_skip (n : Nat) (p : List Char) (ps : List (List Char))
    (cur : List Char) (acc : List (List Char)) (h : strip p = []) :
    chunkLoop n (p :: ps) cur acc = chunkLoop n ps cur acc := by
  simp [chunkLoop, h]

theorem chunkLoop_cons_fit (n : Nat) (p : List Char) (ps : List (List Char))
    (cur : List Char) (acc : List (List Char)) (h1 : strip p ≠ [])
    (h2 : cur.length + p.length < n) :
    chunkLoop n (p :: ps) cur acc = chunkLoop n ps (cur ++ p ++ ['\n', '\n']) acc := by
  simp [chunkLoop, h1, h2]

theorem chunkLoop_cons_carve (n : Nat) (p : List Char) (ps : List (List Char))
    (cur : List Char) (acc : List (List Char)) (h1 : strip p ≠ [])
    (h2 : ¬ (cur.length + p.length < n)) :
    chunkLoop n (p :: ps) cur acc
      = chunkLoop n ps
          (carveFuel n (p ++ ['\n', '\n']).length (p ++ ['\n', '\n'])).2
          ((if cur ≠ [] then acc ++ [strip cur] else acc)
            ++ (carveFuel n (p ++ ['\n', '\n']).length (p ++ ['\n', '\n'])).1) := by
  simp [chunkLoop, h1, h2]

theorem contentAll_flush (acc : List (List Char)) (cur : List Char) :
    contentAll (if cur ≠ [] then acc ++ [strip cur] else acc)
      = contentAll acc ++ content cur := by
  split
  · simp [contentAll, content_strip]
  · next h =>
    simp only [ne_eq, not_not] at h
    subst h
    simp [contentAll, content]

theorem carveFuel_content (n : Nat) : ∀ fuel cur,
    contentAll (carveFuel n fuel cur).1 ++ content (carveFuel n fuel cur).2 = content cur := by
  intro fuel
  induction fuel with
  | zero => intro cur; simp [carveFuel, contentAll]
  | succ fuel ih =>
    intro cur
    by_cases h : n < cur.length
    · simp only [carveFuel, h, if_true]
      have hrec := ih (cur.drop (findSplitIdx n cur))
      simp only [contentAll, List.map_cons, List.flatten_cons] at hrec ⊢
      rw [content_strip, List.append_assoc, hrec, ← content_append,
        List.take_append_drop]
    · simp [carveFuel, h, contentAll]

theorem chunkLoop_content (n : Nat) : ∀ ps cur acc,
    contentAll (chunkLoop n ps cur acc) = contentAll acc ++ content cur ++ contentAll ps := by
  intro ps
  induction ps with
  | nil =>
    intro cur acc
    rw [chunkLoop_nil, contentAll_flush]
    simp [contentAll]
  | cons p ps ih =>
    intro cur acc
    by_cases h1 : strip p = []
    · rw [chunkLoop_cons_skip n p ps cur acc h1, ih]
      have hp : content p = [] := content_nil_of_strip_nil p h1
      simp [contentAll, hp]
    by_cases h2 : cur.length + p.length < n
    · rw [chunkLoop_cons_fit n p ps cur acc h1 h2, ih]
      have hc : content (cur ++ p ++ ['\n', '\n']) = content cur ++ content p := by
        rw [content_append, content_append, content_nl_nl]
        simp
      rw [hc]
      simp [contentAll, List.append_assoc]
    · rw [chunkLoop_cons_carve n p ps cur acc h1 h2, ih]
      have hcv := carveFuel_content n (p ++ ['\n', '\n']).length (p ++ ['\n', '\n'])
      have h3 : content (p ++ ['\n', '\n']) = content p := by
        rw [content_append, content_nl_nl, List.append_nil]
      rw [h3] at hcv
      rw [contentAll_append, contentAll_flush]
      have hcv2 : contentAll (carveFuel n (p ++ ['\n', '\n']).length (p ++ ['\n', '\n'])).1
          ++ (content (carveFuel n (p ++ ['\n', '\n']).length (p ++ ['\n', '\n'])).2
            ++ contentAll ps)
          = content p ++ contentAll ps := by
        rw [← List.append_assoc, hcv]
      have hps : contentAll (p :: ps) = content p ++ contentAll ps := by
        simp [contentAll]
      rw [hps]
      simp only [List.append_assoc]
      rw [hcv2]

theorem contentAll_filter_strip (cs : List (List Char)) :
    contentAll (cs.filter (fun c => !(strip c).isEmpty)) = contentAll cs := by
  induction cs with
  | nil => rfl
  | cons c cs ih =>
    by_cases h : (strip c).isEmpty = true
    · rw [List.filter_cons_of_neg (by simp [h])]
      rw [ih]
      have hc : content c = [] := content_nil_of_strip_nil c (by simpa using h)
      simp [contentAll, hc]
    · rw [List.filter_cons_of_pos (by simp at h ⊢; exact h)]
      simp only [contentAll, List.map_cons, List.flatten_cons] at ih ⊢
      rw [ih]

theorem content_flatten (cs : List (List Char)) : content cs.flatten = contentAll cs := by
  induction cs with
  | nil => rfl
  | cons c cs ih =>
    simp only [List.flatten_cons, contentAll, List.map_cons, List.flatten_cons] at ih ⊢
    rw [content_append, ih]

/-! ## Claim C6 -/

/-- C6: chunking loses no non-whitespace character and duplicates none —
the non-whitespace residue of the concatenated chunks equals that of the
input, which is exactly "content equal to the whitespace-normalized input
once the (all-whitespace) paragraph separators are reinserted". -/
theorem c6_content_preservation (text : List Char) (n : Nat) (hn : 1 ≤ n) :
    content (smart_chunk text n).flatten = content text := by
  unfold smart_chunk
  split
  · next h => subst h; rfl
  · rw [content_flatten, contentAll_filter_strip, chunkLoop_content]
    rw [show contentAll ([] : List (List Char)) = [] from rfl,
      show content ([] : List Char) = [] from rfl]
    simp only [List.nil_append]
    exact contentAll_splitNN text

/-- Witness for C6 at a concrete input. -/
theorem c6_content_preservation_witness :
    (1 : Nat) ≤ 10
    ∧ content (smart_chunk "ab cd ef.\n\ngh  ij".toList 10).flatten
        = content "ab cd ef.\n\ngh  ij".toList :=
  ⟨by omega, c6_content_preservation "ab cd ef.\n\ngh  ij".toList 10 (by omega)⟩

/-! ## Strip structure lemmas (toward idempotence) -/

theorem head?_trimL_not_ws (l : List Char) (x : Char)
    (hx : (trimL l).head? = some x) : isWS x = false := by
  have h := List.head?_dropWhile_not isWS l
  unfold trimL at hx
  rw [hx] at h
  exact h

theorem trimL_eq_self (l : List Char)
    (h : ∀ x, l.head? = some x → isWS x = false) : trimL l = l := by
  cases l with
  | nil => rfl
  | cons c rest =>
    have := h c rfl
    unfold trimL
    rw [List.dropWhile_cons_of_neg (by simp [this])]

theorem trimR_eq_self (l : List Char)
    (h : ∀ x, l.getLast? = some x → isWS x = false) : trimR l = l := by
  unfold trimR
  have h2 : List.dropWhile isWS l.reverse = l.reverse := by
    have := trimL_eq_self l.reverse (fun x hx => h x (by rwa [← List.head?_reverse]))
    simpa [trimL] using this
  rw [h2, List.reverse_reverse]

theorem trimR_reverse_form (l : List Char) :
    trimR l = (l.reverse.dropWhile isWS).reverse := rfl

theorem strip_inf (l : List Char) : strip l <:+: l :=
  ((trimR_pre (trimL l)).isInfix).trans (trimL_suffix l).isInfix

theorem getLast?_strip_not_ws (l : List Char) (x : Char)
    (hx : (strip l).getLast? = some x) : isWS x = false := by
  have h := List.head?_dropWhile_not isWS (trimL l).reverse
  have h2 : (strip l).getLast? = ((trimL l).reverse.dropWhile isWS).head? := by
    unfold strip
    rw [trimR_reverse_form, List.getLast?_reverse]
  rw [h2] at hx
  rw [hx] at h
  exact h

theorem prefix_head? (l₁ l₂ : List Char) (h : l₁ <+: l₂) (hne : l₁ ≠ []) :
    l₂.head? = l₁.head? := by
  obtain ⟨t, rfl⟩ := h
  cases l₁ with
  | nil => exact absurd rfl hne
  | cons c rest => rfl

theorem head?_strip_not_ws (l : List Char) (x : Char)
    (hx : (strip l).head? = some x) : isWS x = false := by
  have hne : strip l ≠ [] := by
    intro e
    rw [e] at hx
    exact absurd hx (by simp)
  have hp : strip l <+: trimL l := trimR_pre (trimL l)
  have h2 : (trimL l).head? = (strip l).head? := prefix_head? _ _ hp hne
  exact head?_trimL_not_ws l x (by rw [h2, hx])

theorem strip_idem (l : List Char) : strip (strip l) = strip l := by
  have h1 : trimL (strip l) = strip l :=
    trimL_eq_self _ (head?_strip_not_ws l)
  show trimR (trimL (strip l)) = strip l
  rw [h1]
  exact trimR_eq_self _ (getLast?_strip_not_ws l)

theorem trimR_eq_nil_iff (l : List Char) : trimR l = [] ↔ ∀ x ∈ l, isWS x = true := by
  rw [trimR_reverse_form]
  simp [List.dropWhile_eq_nil_iff]

theorem strip_eq_nil_iff (l : List Char) : strip l = [] ↔ ∀ x ∈ l, isWS x = true := by
  constructor
  · intro h x hx
    have hc : content l = [] := content_nil_of_strip_nil l h
    have := List.filter_eq_nil_iff.mp hc x hx
    simpa using this
  · intro h
    have h1 : trimL l = [] := (trimL_nil_iff l).mpr h
    show trimR (trimL l) = []
    rw [h1]
    rfl

theorem strip_ne_nil_iff (l : List Char) : strip l ≠ [] ↔ ∃ x ∈ l, isWS x = false := by
  rw [ne_eq, strip_eq_nil_iff]
  push_neg
  constructor
  · intro ⟨x, hx, h⟩
    exact ⟨x, hx, by simpa using h⟩
  · intro ⟨x, hx, h⟩
    exact ⟨x, hx, by simp [h]⟩

theorem trimL_ne_nil_of_strip (l : List Char) (h : strip l ≠ []) : trimL l ≠ [] := by
  intro e
  apply h
  show trimR (trimL l) = []
  rw [e]
  rfl

theorem trimL_append_of_ne (l y : List Char) (h : trimL l ≠ []) :
    trimL (l ++ y) = trimL l ++ y := by
  unfold trimL at h ⊢
  rw [List.dropWhile_append, if_neg (by simpa using h)]

theorem trimR_ne_nil_iff (l : List Char) : trimR l ≠ [] ↔ ∃ x ∈ l, isWS x = false := by
  rw [ne_eq, trimR_eq_nil_iff]
  push_neg
  constructor
  · intro ⟨x, hx, h⟩
    exact ⟨x, hx, by simpa using h⟩
  · intro ⟨x, hx, h⟩
    exact ⟨x, hx, by simp [h]⟩

theorem trimR_append_of_ne (l y : List Char) (h : trimR y ≠ []) :
    trimR (l ++ y) = l ++ trimR y := by
  have h2 : List.dropWhile isWS y.reverse ≠ [] := by
    intro e
    apply h
    rw [trimR_reverse_form, e]
    rfl
  rw [trimR_reverse_form, List.reverse_append, List.dropWhile_append,
    if_neg (by simpa using h2), List.reverse_append, List.reverse_reverse,
    trimR_reverse_form]

theorem trimL_append_allWS (w l : List Char) (hw : ∀ x ∈ w, isWS x = true) :
    trimL (w ++ l) = trimL l := by
  induction w with
  | nil => rfl
  | cons c w ih =>
    show List.dropWhile isWS (c :: (w ++ l)) = trimL l
    rw [List.dropWhile_cons_of_pos (hw c (List.mem_cons_self c w))]
    exact ih (fun x hx => hw x (List.mem_cons_of_mem c hx))

theorem strip_append_allWS_left (w l : List Char) (hw : ∀ x ∈ w, isWS x = true) :
    strip (w ++ l) = strip l := by
  show trimR (trimL (w ++ l)) = strip l
  rw [trimL_append_allWS w l hw]
  rfl

theorem strip_length_lt_of_getLast_ws (l : List Char) (c : Char)
    (hx : l.getLast? = some c) (hc : isWS c = true) :
    (strip l).length < l.length := by
  have hne : l ≠ [] := by
    intro e
    rw [e] at hx
    exact absurd hx (by simp)
  have hdec : l.dropLast ++ [c] = l := by
    have h2 := List.dropLast_append_getLast hne
    rw [List.getLast?_eq_getLast l hne, Option.some_inj] at hx
    rw [hx] at h2
    exact h2
  calc (strip l).length = (strip (l.dropLast ++ [c])).length := by rw [hdec]
    _ = (strip l.dropLast).length := by rw [strip_snoc_ws _ _ hc]
    _ ≤ l.dropLast.length := strip_length_le _
    _ < l.length := by
        rw [← hdec]
        simp

theorem strip_sep_decomp (q X : List Char) (hq : trimL q ≠ []) (hX : trimR X ≠ []) :
    strip (q ++ '\n' :: '\n' :: X) = trimL q ++ '\n' :: '\n' :: trimR X := by
  show trimR (trimL (q ++ '\n' :: '\n' :: X)) = _
  rw [show q ++ '\n' :: '\n' :: X = q ++ ('\n' :: '\n' :: X) from rfl,
    trimL_append_of_ne q _ hq,
    show trimL q ++ '\n' :: '\n' :: X = (trimL q ++ ['\n', '\n']) ++ X by simp,
    trimR_append_of_ne _ X hX]
  simp

/-! ## splitNN structure lemmas -/

theorem splitNN_cons2_pos (rest : List Char) :
    splitNN ('\n' :: '\n' :: rest) = [] :: splitNN rest := by
  simp [splitNN]

theorem splitNN_cons2_neg (c1 c2 : Char) (rest : List Char)
    (h : ¬ (c1 = '\n' ∧ c2 = '\n')) :
    splitNN (c1 :: c2 :: rest) = consHead c1 (splitNN (c2 :: rest)) := by
  rw [splitNN, if_neg h]

theorem nnFree_of_inf (p t : List Char) (hp : nnFree p) (ht : t <:+: p) : nnFree t :=
  fun h => hp (h.trans ht)

theorem nnFree_nil : nnFree [] := by
  intro h
  have := h.length_le
  simp at this

theorem nnFree_cons_of (c : Char) (l : List Char) (hl : nnFree l)
    (h : ¬ (c = '\n' ∧ l.head? = some '\n')) : nnFree (c :: l) := by
  intro hinf
  rcases List.infix_cons_iff.mp hinf with hpre | hinf2
  · obtain ⟨t, ht⟩ := hpre
    cases ht
    exact h ⟨rfl, rfl⟩
  · exact hl hinf2

theorem nnFree_of_not_mem (l : List Char) (h : '\n' ∉ l) : nnFree l := by
  intro hinf
  exact h (hinf.mem (by simp))

theorem splitNN_head_prefix (l : List Char) (p : List Char) (ps : List (List Char))
    (h : splitNN l = p :: ps) : p <+: l := by
  match l with
  | [] =>
    have he : splitNN ([] : List Char) = [[]] := rfl
    rw [he] at h
    injection h with h1 h2
    rw [← h1]
  | [c] =>
    have he : splitNN [c] = [[c]] := rfl
    rw [he] at h
    injection h with h1 h2
    rw [← h1]
  | c1 :: c2 :: rest =>
    by_cases hnl : c1 = '\n' ∧ c2 = '\n'
    · obtain ⟨e1, e2⟩ := hnl
      subst e1
      subst e2
      rw [splitNN_cons2_pos] at h
      have : p = [] := by
        have := h
        injection this with h1 h2
        exact h1.symm
      rw [this]
      simp
    · rw [splitNN_cons2_neg c1 c2 rest hnl] at h
      match hq : splitNN (c2 :: rest) with
      | [] => exact absurd hq (splitNN_ne_nil _)
      | q :: qs =>
        rw [hq] at h
        simp only [consHead] at h
        injection h with h1 h2
        have hpre : q <+: c2 :: rest := splitNN_head_prefix (c2 :: rest) q qs hq
        rw [← h1]
        obtain ⟨t, ht⟩ := hpre
        exact ⟨t, by rw [List.cons_append, ht]⟩

theorem splitNN_parts_nnFree (l : List Char) : ∀ q ∈ splitNN l, nnFree q := by
  match l with
  | [] =>
    intro q hq
    simp [splitNN] at hq
    rw [hq]
    exact nnFree_nil
  | [c] =>
    intro q hq
    simp [splitNN] at hq
    rw [hq]
    intro hinf
    have := hinf.length_le
    simp at this
  | c1 :: c2 :: rest =>
    intro q hq
    by_cases hnl : c1 = '\n' ∧ c2 = '\n'
    · obtain ⟨e1, e2⟩ := hnl
      subst e1
      subst e2
      rw [splitNN_cons2_pos] at hq
      rcases List.mem_cons.mp hq with hq | hq
      · rw [hq]
        exact nnFree_nil
      · exact splitNN_parts_nnFree rest q hq
    · rw [splitNN_cons2_neg c1 c2 rest hnl] at hq
      match hs : splitNN (c2 :: rest) with
      | [] => exact absurd hs (splitNN_ne_nil _)
      | p :: ps =>
        rw [hs] at hq
        simp only [consHead] at hq
        rcases List.mem_cons.mp hq with hq | hq
        · subst hq
          have hpfree : nnFree p := splitNN_parts_nnFree (c2 :: rest) p (by rw [hs]; simp)
          refine nnFree_cons_of c1 p hpfree ?_
          intro ⟨e1, e2⟩
          subst e1
          have hpre : p <+: c2 :: rest := splitNN_head_prefix (c2 :: rest) p ps hs
          have : p.head? = some c2 := by
            cases p with
            | nil => simp at e2
            | cons x xs =>
              obtain ⟨t, ht⟩ := hpre
              injection ht with h1 _
              simp [h1]
          rw [this] at e2
          injection e2 with e2
          exact hnl ⟨rfl, e2⟩
        · exact splitNN_parts_nnFree (c2 :: rest) q (by rw [hs]; simp [hq])

theorem splitNN_dropLast_not_endsNL (l : List Char) :
    ∀ q ∈ (splitNN l).dropLast, ¬ endsNL q := by
  match l with
  | [] =>
    intro q hq
    simp [splitNN] at hq
  | [c] =>
    intro q hq
    simp [splitNN] at hq
  | c1 :: c2 :: rest =>
    intro q hq
    by_cases hnl : c1 = '\n' ∧ c2 = '\n'
    · obtain ⟨e1, e2⟩ := hnl
      subst e1
      subst e2
      rw [splitNN_cons2_pos] at hq
      match hs : splitNN rest with
      | [] => exact absurd hs (splitNN_ne_nil _)
      | p :: ps =>
        rw [hs] at hq
        rw [List.dropLast_cons_of_ne_nil (by simp)] at hq
        rcases List.mem_cons.mp hq with hq | hq
        · rw [hq]
          simp [endsNL]
        · have := splitNN_dropLast_not_endsNL rest q
          rw [hs] at this
          exact this hq
    · rw [splitNN_cons2_neg c1 c2 rest hnl] at hq
      match hs : splitNN (c2 :: rest) with
      | [] => exact absurd hs (splitNN_ne_nil _)
      | p :: ps =>
        rw [hs] at hq
        simp only [consHead] at hq
        match hps : ps with
        | [] => simp at hq
        | p2 :: ps' =>
          rw [List.dropLast_cons_of_ne_nil (by simp)] at hq
          rcases List.mem_cons.mp hq with hq | hq
          · subst hq
            intro hend
            unfold endsNL at hend
            cases hp : p with
            | nil =>
              subst hp
              simp at hend
              subst hend
              have hthis : splitNN (c2 :: rest) = [] :: p2 :: ps' := hs
              have hc2 : c2 = '\n' := by
                cases rest with
                | nil =>
                  have he : splitNN [c2] = [[c2]] := rfl
                  rw [he] at hthis
                  injection hthis with t1 _
                  simp at t1
                | cons r1 r2 =>
                  by_cases hx : c2 = '\n' ∧ r1 = '\n'
                  · exact hx.1
                  · rw [splitNN_cons2_neg c2 r1 r2 hx] at hthis
                    match hs2 : splitNN (r1 :: r2) with
                    | [] => exact absurd hs2 (splitNN_ne_nil _)
                    | y :: ys =>
                      rw [hs2] at hthis
                      simp only [consHead] at hthis
                      injection hthis with t1 _
                      simp at t1
              exact hnl ⟨rfl, hc2⟩
            | cons x xs =>
              subst hp
              have hlast : (x :: xs).getLast? = some '\n' := by
                simpa using hend
              have := splitNN_dropLast_not_endsNL (c2 :: rest) (x :: xs)
              rw [hs, List.dropLast_cons_of_ne_nil (by simp)] at this
              exact this (by simp) hlast
          · have hrec := splitNN_dropLast_not_endsNL (c2 :: rest) q
            rw [hs, List.dropLast_cons_of_ne_nil (by simp)] at hrec
            exact hrec (List.mem_cons_of_mem p hq)

theorem splitNN_of_nnFree (l : List Char) (h : nnFree l) : splitNN l = [l] := by
  match l with
  | [] => rfl
  | [c] => rfl
  | c1 :: c2 :: rest =>
    by_cases hnl : c1 = '\n' ∧ c2 = '\n'
    · exfalso
      apply h
      obtain ⟨e1, e2⟩ := hnl
      subst e1
      subst e2
      exact (List.prefix_iff_eq_take.mpr rfl).isInfix
    · have htail : nnFree (c2 :: rest) :=
        nnFree_of_inf (c1 :: c2 :: rest) (c2 :: rest) h
          (List.IsSuffix.isInfix ⟨[c1], rfl⟩)
      rw [splitNN_cons2_neg c1 c2 rest hnl, splitNN_of_nnFree (c2 :: rest) htail]
      rfl

theorem consHead_append (c : Char) (x y : List (List Char)) (h : x ≠ []) :
    consHead c (x ++ y) = consHead c x ++ y := by
  cases x with
  | nil => exact absurd rfl h
  | cons p ps => rfl

theorem splitNN_append_sep (A B : List Char) (h : ¬ endsNL A) :
    splitNN (A ++ '\n' :: '\n' :: B) = splitNN A ++ splitNN B := by
  match A with
  | [] =>
    rw [List.nil_append, splitNN_cons2_pos]
    rfl
  | [a] =>
    have ha : ¬ (a = '\n' ∧ '\n' = '\n') := by
      intro ⟨e, _⟩
      subst e
      exact h rfl
    rw [show [a] ++ '\n' :: '\n' :: B = a :: '\n' :: '\n' :: B from rfl,
      splitNN_cons2_neg a '\n' ('\n' :: B) ha, splitNN_cons2_pos]
    rfl
  | a1 :: a2 :: A' =>
    by_cases hx : a1 = '\n' ∧ a2 = '\n'
    · obtain ⟨e1, e2⟩ := hx
      subst e1
      subst e2
      cases A' with
      | nil => exact absurd rfl h
      | cons b A'' =>
        have h' : ¬ endsNL (b :: A'') := by
          intro he
          exact h (by simpa [endsNL] using he)
        rw [show ('\n' :: '\n' :: b :: A'') ++ '\n' :: '\n' :: B
            = '\n' :: '\n' :: ((b :: A'') ++ '\n' :: '\n' :: B) from rfl,
          splitNN_cons2_pos, splitNN_append_sep (b :: A'') B h', splitNN_cons2_pos]
        rfl
    · have h' : ¬ endsNL (a2 :: A') := by
        intro he
        exact h (by simpa [endsNL] using he)
      rw [show (a1 :: a2 :: A') ++ '\n' :: '\n' :: B
          = a1 :: ((a2 :: A') ++ '\n' :: '\n' :: B) from rfl]
      have hstep : splitNN (a1 :: ((a2 :: A') ++ '\n' :: '\n' :: B))
          = consHead a1 (splitNN ((a2 :: A') ++ '\n' :: '\n' :: B)) := by
        exact splitNN_cons2_neg a1 a2 (A' ++ '\n' :: '\n' :: B) hx
      rw [hstep, splitNN_append_sep (a2 :: A') B h',
        consHead_append a1 _ _ (splitNN_ne_nil _),
        ← splitNN_cons2_neg a1 a2 A' hx]

theorem GoodParts_prepend (w X : List Char) (hw : nnFree w)
    (hX1 : ∀ x, X.head? = some x → isWS x = false) (hXne : X ≠ [])
    (hXg : GoodParts X) : GoodParts (w ++ X) := by
  match w with
  | [] => simpa using hXg
  | c :: w' =>
    have hw' : nnFree w' :=
      nnFree_of_inf (c :: w') w' hw (List.IsSuffix.isInfix ⟨[c], rfl⟩)
    have hrec : GoodParts (w' ++ X) := GoodParts_prepend w' X hw' hX1 hXne hXg
    have hne2 : w' ++ X ≠ [] := by
      intro e
      rcases List.append_eq_nil.mp e with ⟨_, e2⟩
      exact hXne e2
    have hcond : ∀ y, (w' ++ X).head? = some y → ¬ (c = '\n' ∧ y = '\n') := by
      intro y hy ⟨e1, e2⟩
      subst e1
      subst e2
      cases w' with
      | nil =>
        simp only [List.nil_append] at hy
        have := hX1 '\n' hy
        simp [isWS] at this
      | cons d w'' =>
        simp only [List.cons_append, List.head?_cons, Option.some_inj] at hy
        subst hy
        exact hw (List.IsPrefix.isInfix (List.prefix_iff_eq_take.mpr rfl))
    intro q hq
    obtain ⟨y, ys, hyy⟩ : ∃ y ys, w' ++ X = y :: ys := by
      cases hcase : w' ++ X with
      | nil => exact absurd hcase hne2
      | cons y ys => exact ⟨y, ys, rfl⟩
    rw [show (c :: w') ++ X = c :: (w' ++ X) from rfl, hyy,
      splitNN_cons2_neg c y ys (hcond y (by rw [hyy]; rfl)), ← hyy] at hq
    match hs : splitNN (w' ++ X) with
    | [] => exact absurd hs (splitNN_ne_nil _)
    | p :: ps =>
      rw [hs] at hq
      simp only [consHead] at hq
      rcases List.mem_cons.mp hq with hq | hq
      · subst hq
        have hp : strip p ≠ [] := hrec p (by rw [hs]; simp)
        obtain ⟨x, hx1, hx2⟩ := (strip_ne_nil_iff p).mp hp
        exact (strip_ne_nil_iff _).mpr ⟨x, List.mem_cons_of_mem c hx1, hx2⟩
      · exact hrec q (by rw [hs]; simp [hq])

/-! ## Carve-chunk characterization -/

theorem rfindSep_none_not_mem (x : Char) (l : List Char)
    (h : rfindSep [x] l = none) : x ∉ l := by
  intro hmem
  unfold rfindSep at h
  rw [List.find?_eq_none] at h
  obtain ⟨i, hi, hgi⟩ := List.getElem_of_mem hmem
  have hpred : [x].isPrefixOf (l.drop i) = true := by
    rw [List.drop_eq_getElem_cons hi, hgi]
    simp [List.isPrefixOf]
  exact h i (by simp; omega) hpred

theorem take_rfindSep_eq (sep l : List Char) (m : Nat)
    (h : rfindSep sep l = some m) : l.take (m + sep.length) = l.take m ++ sep := by
  have hb := rfindSep_some_bound sep l m h
  unfold rfindSep at h
  have hp := List.find?_some h
  simp only [List.isPrefixOf_iff_prefix] at hp
  obtain ⟨t, ht⟩ := hp
  rw [List.take_add, ← ht, List.take_left]

theorem GoodParts_of_nnFree (c : List Char) (h1 : nnFree c) (h2 : strip c = c)
    (h3 : c ≠ []) : GoodParts c := by
  intro q hq
  rw [splitNN_of_nnFree c h1] at hq
  simp at hq
  subst hq
  rw [h2]
  exact h3

theorem infix_pnn_of_last_not_ws (p t : List Char) (ht : t <:+: p ++ ['\n', '\n'])
    (hne : t ≠ []) (hlast : ∀ x, t.getLast? = some x → isWS x = false) :
    t <:+: p := by
  have h1 : t.reverse <:+: ('\n' :: '\n' :: p.reverse) := by
    have h2 := ht.reverse
    simpa using h2
  have hh : ∀ x, t.reverse.head? = some x → isWS x = false := by
    intro x hx
    rw [List.head?_reverse] at hx
    exact hlast x hx
  have hne' : t.reverse ≠ [] := by simpa using hne
  have step : ∀ (z : List Char), t.reverse <:+: '\n' :: z → t.reverse <:+: z := by
    intro z hz
    rcases List.infix_cons_iff.mp hz with hpre | hinf
    · exfalso
      have hhead : t.reverse.head? = some '\n' := by
        rw [← prefix_head? t.reverse ('\n' :: z) hpre hne']
        rfl
      have := hh '\n' hhead
      simp [isWS] at this
    · exact hinf
  have h2 := step _ (step _ h1)
  exact List.reverse_infix.mp h2

theorem nnFree_strip_of_infix (p s : List Char) (hp : nnFree p)
    (hs : s <:+: p ++ ['\n', '\n']) : nnFree (strip s) := by
  by_cases h : strip s = []
  · rw [h]
    exact nnFree_nil
  · have hinf : strip s <:+: p ++ ['\n', '\n'] := (strip_inf s).trans hs
    have h2 := infix_pnn_of_last_not_ws p (strip s) hinf h (getLast?_strip_not_ws s)
    exact nnFree_of_inf p _ hp h2

theorem carveFuel_rest_suffix (n : Nat) : ∀ fuel cur, (carveFuel n fuel cur).2 <:+ cur := by
  intro fuel
  induction fuel with
  | zero => intro cur; exact List.suffix_rfl
  | succ fuel ih =>
    intro cur
    by_cases h : n < cur.length
    · simp only [carveFuel, h, if_true]
      exact (ih (cur.drop (findSplitIdx n cur))).trans (List.drop_suffix _ _)
    · simp only [carveFuel, h, if_false]
      exact List.suffix_rfl

theorem strip_take_sep_lt (n : Nat) (cur sep : List Char) (m : Nat) (c : Char)
    (hfind : rfindSep sep (cur.take n) = some m)
    (hlast : sep.getLast? = some c) (hws : isWS c = true) :
    (strip (cur.take (m + sep.length))).length < n := by
  have hb := rfindSep_some_bound sep (cur.take n) m hfind
  have hwl : (cur.take n).length ≤ n := by
    simp only [List.length_take]
    omega
  have hsepne : sep ≠ [] := by
    intro e
    rw [e] at hlast
    exact absurd hlast (by simp)
  have hslen : 1 ≤ sep.length := by
    cases sep with
    | nil => exact absurd rfl hsepne
    | cons a b => simp
  have htake : cur.take (m + sep.length) = (cur.take n).take m ++ sep := by
    rw [show cur.take (m + sep.length) = (cur.take n).take (m + sep.length) by
        rw [List.take_take]
        congr 1
        omega,
      take_rfindSep_eq sep (cur.take n) m hfind]
  have hgl : (cur.take (m + sep.length)).getLast? = some c := by
    rw [htake, List.getLast?_append, hlast]
    rfl
  calc (strip (cur.take (m + sep.length))).length
      < (cur.take (m + sep.length)).length := strip_length_lt_of_getLast_ws _ c hgl hws
    _ ≤ n := by
        simp only [List.length_take]
        omega

theorem carveFuel_chunks_nice (n : Nat) (p : List Char) (hp : nnFree p) :
    ∀ fuel cur, cur <:+ p ++ ['\n', '\n'] →
      ∀ c ∈ (carveFuel n fuel cur).1, NiceChunk n c := by
  intro fuel
  induction fuel with
  | zero => intro cur _ c hc; simp [carveFuel] at hc
  | succ fuel ih =>
    intro cur hsuf c hc
    by_cases h : n < cur.length
    · simp only [carveFuel, h, if_true] at hc
      rcases List.mem_cons.mp hc with hc | hc
      · subst hc
        set idx := findSplitIdx n cur with hidxdef
        have hnn : nnFree (strip (cur.take idx)) :=
          nnFree_strip_of_infix p (cur.take idx) hp
            (((List.take_prefix idx cur).isInfix).trans hsuf.isInfix)
        have hstriple : strip (strip (cur.take idx)) = strip (cur.take idx) :=
          strip_idem _
        refine ⟨hstriple, ?_⟩
        by_cases hcnil : strip (cur.take idx) = []
        · exact Or.inl hcnil
        refine Or.inr ?_
        -- case analysis on which separator matched
        rcases h1 : rfindSep ['\n'] (cur.take n) with _ | m
        rotate_left
        · have : idx = m + ['\n'].length := by
            simp [hidxdef, findSplitIdx, h1]
          rw [this]
          exact Or.inl ⟨strip_take_sep_lt n cur ['\n'] m '\n' h1 rfl rfl,
            GoodParts_of_nnFree _ (this ▸ hnn) (this ▸ hstriple) (this ▸ hcnil)⟩
        rcases h2 : rfindSep ['.', ' '] (cur.take n) with _ | m
        rotate_left
        · have : idx = m + ['.', ' '].length := by
            simp [hidxdef, findSplitIdx, h1, h2]
          rw [this]
          exact Or.inl ⟨strip_take_sep_lt n cur ['.', ' '] m ' ' h2 rfl rfl,
            GoodParts_of_nnFree _ (this ▸ hnn) (this ▸ hstriple) (this ▸ hcnil)⟩
        rcases h3 : rfindSep ['?', ' '] (cur.take n) with _ | m
        rotate_left
        · have : idx = m + ['?', ' '].length := by
            simp [hidxdef, findSplitIdx, h1, h2, h3]
          rw [this]
          exact Or.inl ⟨strip_take_sep_lt n cur ['?', ' '] m ' ' h3 rfl rfl,
            GoodParts_of_nnFree _ (this ▸ hnn) (this ▸ hstriple) (this ▸ hcnil)⟩
        rcases h4 : rfindSep ['!', ' '] (cur.take n) with _ | m
        rotate_left
        · have : idx = m + ['!', ' '].length := by
            simp [hidxdef, findSplitIdx, h1, h2, h3, h4]
          rw [this]
          exact Or.inl ⟨strip_take_sep_lt n cur ['!', ' '] m ' ' h4 rfl rfl,
            GoodParts_of_nnFree _ (this ▸ hnn) (this ▸ hstriple) (this ▸ hcnil)⟩
        rcases h5 : rfindSep [' '] (cur.take n) with _ | m
        rotate_left
        · have : idx = m + [' '].length := by
            simp [hidxdef, findSplitIdx, h1, h2, h3, h4, h5]
          rw [this]
          exact Or.inl ⟨strip_take_sep_lt n cur [' '] m ' ' h5 rfl rfl,
            GoodParts_of_nnFree _ (this ▸ hnn) (this ▸ hstriple) (this ▸ hcnil)⟩
        · -- all separators failed: idx is the window length (= n here)
          have hidxw : idx = n := by
            have : idx = (cur.take n).length := by
              simp [hidxdef, findSplitIdx, h1, h2, h3, h4, h5]
            rw [this]
            simp only [List.length_take]
            omega
          have hwin : cur.take idx = cur.take n := by rw [hidxw]
          by_cases hlen : (strip (cur.take idx)).length = n
          · refine Or.inr ⟨hlen, ?_, ?_⟩
            · have heq : strip (cur.take idx) = cur.take n := by
                apply ((strip_inf (cur.take idx)).trans
                  (by rw [hwin] : cur.take idx <:+: cur.take n)).eq_of_length
                rw [hlen]
                have : n ≤ cur.length := by omega
                simp only [List.length_take]
                omega
              rw [heq]
              exact rfindSep_none_not_mem '\n' (cur.take n) h1
            · have heq : strip (cur.take idx) = cur.take n := by
                apply ((strip_inf (cur.take idx)).trans
                  (by rw [hwin] : cur.take idx <:+: cur.take n)).eq_of_length
                rw [hlen]
                simp only [List.length_take]
                omega
              rw [heq]
              exact rfindSep_none_not_mem ' ' (cur.take n) h5
          · refine Or.inl ⟨?_, GoodParts_of_nnFree _ hnn hstriple hcnil⟩
            have : (strip (cur.take idx)).length ≤ (cur.take idx).length :=
              strip_length_le _
            simp only [List.length_take] at this
            omega
      · exact ih (cur.drop (findSplitIdx n cur))
          ((List.drop_suffix _ _).trans hsuf) c hc
    · simp [carveFuel, h] at hc

/-! ## Buffer-flush characterization -/

theorem joinMap_nil : joinMap [] = [] := rfl

theorem joinMap_cons (q : List Char) (qs : List (List Char)) :
    joinMap (q :: qs) = q ++ ('\n' :: '\n' :: joinMap qs) := by
  simp [joinMap]

theorem joinMap_append (a b : List (List Char)) :
    joinMap (a ++ b) = joinMap a ++ joinMap b := by
  simp [joinMap]

theorem trimL_idem (q : List Char) : trimL (trimL q) = trimL q :=
  trimL_eq_self _ (head?_trimL_not_ws q)

theorem strip_trimL (q : List Char) : strip (trimL q) = strip q := by
  show trimR (trimL (trimL q)) = strip q
  rw [trimL_idem]
  rfl

theorem takeWhile_append_stop (p : Char → Bool) (l₁ l₂ : List Char)
    (h : ∃ x ∈ l₁, p x = false) : (l₁ ++ l₂).takeWhile p = l₁.takeWhile p := by
  induction l₁ with
  | nil =>
    obtain ⟨x, hx, _⟩ := h
    simp at hx
  | cons c l ih =>
    by_cases hc : p c = true
    · rw [List.cons_append, List.takeWhile_cons_of_pos hc, List.takeWhile_cons_of_pos hc]
      rw [ih ?_]
      obtain ⟨x, hx1, hx2⟩ := h
      rcases List.mem_cons.mp hx1 with e | hx1
      · subst e
        rw [hc] at hx2
        simp at hx2
      · exact ⟨x, hx1, hx2⟩
    · rw [List.cons_append, List.takeWhile_cons_of_neg (by simpa using hc),
        List.takeWhile_cons_of_neg (by simpa using hc)]

theorem flush_parts (qs : List (List Char))
    (h1 : ∀ q ∈ qs, nnFree q)
    (h2 : ∀ q ∈ qs.dropLast, ¬ endsNL q)
    (h3 : ∀ q ∈ qs.tail, strip q ≠ []) :
    strip (joinMap qs) = [] ∨ GoodParts (strip (joinMap qs)) := by
  match qs with
  | [] => exact Or.inl rfl
  | q :: qs' =>
    by_cases hq : strip q = []
    · have hws : ∀ x ∈ q ++ ['\n', '\n'], isWS x = true := by
        intro x hx
        rcases List.mem_append.mp hx with hx | hx
        · exact (strip_eq_nil_iff q).mp hq x hx
        · simp at hx
          rw [hx]
          rfl
      have hrw : strip (joinMap (q :: qs')) = strip (joinMap qs') := by
        rw [joinMap_cons,
          show q ++ ('\n' :: '\n' :: joinMap qs') = (q ++ ['\n', '\n']) ++ joinMap qs'
            by simp,
          strip_append_allWS_left _ _ hws]
      rw [hrw]
      refine flush_parts qs' (fun r hr => h1 r (List.mem_cons_of_mem q hr)) ?_
        (fun r hr => h3 r (by cases qs' with
          | nil => simp at hr
          | cons a b => exact List.mem_cons_of_mem a (by simpa using hr)))
      intro r hr
      apply h2 r
      cases qs' with
      | nil => simp at hr
      | cons a b =>
        rw [List.dropLast_cons_of_ne_nil (by simp)]
        exact List.mem_cons_of_mem q hr
    · match qs' with
      | [] =>
        refine Or.inr ?_
        have hrw : strip (joinMap [q]) = strip q := by
          rw [joinMap_cons, joinMap_nil,
            show q ++ ('\n' :: '\n' :: ([] : List Char)) = q ++ ['\n', '\n'] from rfl,
            strip_append_allWS q ['\n', '\n'] (by intro x hx; simp at hx; rw [hx]; rfl)]
        rw [hrw]
        exact GoodParts_of_nnFree (strip q)
          (nnFree_of_inf q _ (h1 q (List.mem_cons_self q [])) (strip_inf q))
          (strip_idem q) hq
      | q2 :: qs'' =>
        refine Or.inr ?_
        have hq2 : strip q2 ≠ [] := h3 q2 (by simp)
        obtain ⟨x2, hx21, hx22⟩ := (strip_ne_nil_iff q2).mp hq2
        have hJmem : x2 ∈ joinMap (q2 :: qs'') := by
          rw [joinMap_cons]
          exact List.mem_append_left _ hx21
        have hJne : trimR (joinMap (q2 :: qs'')) ≠ [] :=
          (trimR_ne_nil_iff _).mpr ⟨x2, hJmem, hx22⟩
        have hJs : strip (joinMap (q2 :: qs'')) ≠ [] :=
          (strip_ne_nil_iff _).mpr ⟨x2, hJmem, hx22⟩
        have htq : trimL q ≠ [] := trimL_ne_nil_of_strip q hq
        have hqnotend : ¬ endsNL q := by
          apply h2 q
          rw [List.dropLast_cons_of_ne_nil (by simp)]
          exact List.mem_cons_self q _
        have hnotend : ¬ endsNL (trimL q) := by
          intro he
          apply hqnotend
          unfold endsNL at he ⊢
          obtain ⟨t, ht⟩ := trimL_suffix q
          rw [← ht, List.getLast?_append, he]
          rfl
        intro r hr
        rw [joinMap_cons, strip_sep_decomp q (joinMap (q2 :: qs'')) htq hJne,
          splitNN_append_sep (trimL q) (trimR (joinMap (q2 :: qs''))) hnotend] at hr
        rcases List.mem_append.mp hr with hl | hrr
        · have hnt : nnFree (trimL q) :=
            nnFree_of_inf q _ (h1 q (List.mem_cons_self q _)) (trimL_suffix q).isInfix
          rw [splitNN_of_nnFree _ hnt] at hl
          simp at hl
          subst hl
          rw [strip_trimL]
          exact hq
        · have hrec := flush_parts (q2 :: qs'')
            (fun r hr => h1 r (List.mem_cons_of_mem q hr))
            (fun r hr => h2 r (by
              rw [List.dropLast_cons_of_ne_nil (by simp)]
              exact List.mem_cons_of_mem q hr))
            (fun r hr => h3 r (List.mem_cons_of_mem q2 (by simpa using hr)))
          have hGJ : GoodParts (strip (joinMap (q2 :: qs''))) := hrec.resolve_left hJs
          have hdecomp : trimR (joinMap (q2 :: qs''))
              = (joinMap (q2 :: qs'')).takeWhile isWS ++ strip (joinMap (q2 :: qs'')) := by
            conv_lhs => rw [← List.takeWhile_append_dropWhile (p := isWS)
              (l := joinMap (q2 :: qs''))]
            rw [trimR_append_of_ne _ _ (by
              show trimR (List.dropWhile isWS (joinMap (q2 :: qs''))) ≠ []
              exact hJs)]
            rfl
          have hw : nnFree ((joinMap (q2 :: qs'')).takeWhile isWS) := by
            have htw : (joinMap (q2 :: qs'')).takeWhile isWS = q2.takeWhile isWS := by
              rw [joinMap_cons]
              exact takeWhile_append_stop isWS q2 _ ⟨x2, hx21, hx22⟩
            rw [htw]
            exact nnFree_of_inf q2 _ (h1 q2 (by simp))
              (List.takeWhile_prefix isWS).isInfix
          rw [hdecomp] at hrr
          exact GoodParts_prepend _ _ hw (head?_strip_not_ws _) hJs hGJ r hrr

/-! ## Re-chunking an emitted chunk -/

theorem joinMap_eq_joinNN (qs : List (List Char)) (h : qs ≠ []) :
    joinMap qs = joinNN qs ++ ['\n', '\n'] := by
  match qs with
  | [] => exact absurd rfl h
  | [q] =>
    rw [joinMap_cons, joinMap_nil]
    rfl
  | q :: q2 :: qs' =>
    rw [joinMap_cons, joinMap_eq_joinNN (q2 :: qs') (by simp)]
    show q ++ ('\n' :: '\n' :: (joinNN (q2 :: qs') ++ ['\n', '\n']))
        = (q ++ '\n' :: '\n' :: joinNN (q2 :: qs')) ++ ['\n', '\n']
    simp

theorem chunkLoop_all_fit (n : Nat) : ∀ (qs : List (List Char)) (cur : List Char)
    (acc : List (List Char)),
    (∀ q ∈ qs, strip q ≠ []) →
    cur.length + (joinMap qs).length ≤ n + 1 →
    (cur ≠ [] ∨ qs ≠ []) →
    chunkLoop n qs cur acc = acc ++ [strip (cur ++ joinMap qs)] := by
  intro qs
  induction qs with
  | nil =>
    intro cur acc _ _ hne
    rw [joinMap_nil, List.append_nil, chunkLoop_nil,
      if_pos (hne.resolve_right (by simp))]
  | cons q qs ih =>
    intro cur acc hstrip hlen hne
    have hq : strip q ≠ [] := hstrip q (List.mem_cons_self q qs)
    have hjl : (joinMap (q :: qs)).length = q.length + 2 + (joinMap qs).length := by
      rw [joinMap_cons]
      simp
      omega
    have hfit : cur.length + q.length < n := by omega
    rw [chunkLoop_cons_fit n q qs cur acc hq hfit,
      ih (cur ++ q ++ ['\n', '\n']) acc
        (fun r hr => hstrip r (List.mem_cons_of_mem q hr))
        (by simp; omega)
        (Or.inl (by simp))]
    rw [joinMap_cons,
      show (cur ++ q ++ ['\n', '\n']) ++ joinMap qs
        = cur ++ (q ++ ('\n' :: '\n' :: joinMap qs)) by simp]

theorem filter_single_keep (c : List Char) (h1 : strip c = c) (h2 : c ≠ []) :
    List.filter (fun x => !(strip x).isEmpty) [c] = [c] := by
  rw [List.filter_cons_of_pos]
  · rfl
  · rw [h1]
    simpa using h2

theorem rechunk_small (n : Nat) (c : List Char) (h1 : strip c = c) (h2 : c ≠ [])
    (h3 : c.length < n) (h4 : GoodParts c) : smart_chunk c n = [c] := by
  unfold smart_chunk
  rw [if_neg h2]
  have hjm : joinMap (splitNN c) = c ++ ['\n', '\n'] := by
    rw [joinMap_eq_joinNN (splitNN c) (splitNN_ne_nil c), joinNN_splitNN]
  rw [chunkLoop_all_fit n (splitNN c) [] [] h4
      (by rw [hjm]; simp; omega)
      (Or.inr (splitNN_ne_nil c))]
  rw [List.nil_append, List.nil_append, hjm,
    strip_append_allWS c ['\n', '\n'] (by intro x hx; simp at hx; rw [hx]; rfl), h1]
  exact filter_single_keep c h1 h2

theorem rfindSep_eq_none_of (sep l : List Char) (x : Char) (hx : x ∈ sep)
    (h : x ∉ l) : rfindSep sep l = none := by
  unfold rfindSep
  rw [List.find?_eq_none]
  intro i _ hpred
  simp only [List.isPrefixOf_iff_prefix] at hpred
  exact h (hpred.isInfix.mem hx |> (List.drop_suffix i l).mem)

theorem rechunk_exact (n : Nat) (hn : 1 ≤ n) (c : List Char) (h1 : strip c = c)
    (h2 : c ≠ []) (h3 : c.length = n) (h4 : '\n' ∉ c) (h5 : ' ' ∉ c) :
    smart_chunk c n = [c] := by
  have hnn : nnFree c := nnFree_of_not_mem c h4
  have hsne : strip c ≠ [] := by rw [h1]; exact h2
  unfold smart_chunk
  rw [if_neg h2, splitNN_of_nnFree c hnn]
  have hnofit : ¬ (([] : List Char).length + c.length < n) := by
    simp [h3]
  rw [chunkLoop_cons_carve n c [] [] [] hsne hnofit]
  have hwin : (c ++ ['\n', '\n']).take n = c := List.take_left' h3
  have hdrop : (c ++ ['\n', '\n']).drop n = ['\n', '\n'] := List.drop_left' h3
  have hlen2 : (c ++ ['\n', '\n']).length = n + 2 := by simp [h3]
  have hidx : findSplitIdx n (c ++ ['\n', '\n']) = n := by
    have e1 : rfindSep ['\n'] c = none :=
      rfindSep_eq_none_of _ _ '\n' (by simp) h4
    have e2 : rfindSep ['.', ' '] c = none :=
      rfindSep_eq_none_of _ _ ' ' (by simp) h5
    have e3 : rfindSep ['?', ' '] c = none :=
      rfindSep_eq_none_of _ _ ' ' (by simp) h5
    have e4 : rfindSep ['!', ' '] c = none :=
      rfindSep_eq_none_of _ _ ' ' (by simp) h5
    have e5 : rfindSep [' '] c = none :=
      rfindSep_eq_none_of _ _ ' ' (by simp) h5
    simp [findSplitIdx, hwin, e1, e2, e3, e4, e5, h3]
  have hstep1 : carveFuel n ((c ++ ['\n', '\n']).length) (c ++ ['\n', '\n'])
      = (c :: (carveFuel n (n + 1) ['\n', '\n']).1,
         (carveFuel n (n + 1) ['\n', '\n']).2) := by
    rw [hlen2]
    show carveFuel n (n + 1 + 1) (c ++ ['\n', '\n']) = _
    rw [carveFuel, if_pos (by rw [hlen2]; omega)]
    simp only [hidx, hdrop, hwin, h1]
  by_cases hn2 : 2 ≤ n
  · have htail : carveFuel n (n + 1) ['\n', '\n'] = ([], ['\n', '\n']) := by
      show carveFuel n (n + 1) ['\n', '\n'] = _
      cases n with
      | zero => omega
      | succ m =>
        rw [carveFuel, if_neg (by simp; omega)]
    rw [hstep1, htail]
    rw [show ((if ([] : List Char) ≠ [] then ([] : List (List Char)) ++ [strip []] else [])
        ++ [c]) = [c] by simp]
    rw [chunkLoop_nil, if_pos (by simp)]
    show List.filter _ [c, strip ['\n', '\n']] = [c]
    rw [show strip ['\n', '\n'] = [] from rfl]
    rw [List.filter_cons_of_pos (by rw [h1]; simpa using h2)]
    rfl
  · have hn1 : n = 1 := by omega
    subst hn1
    have htail : carveFuel 1 (1 + 1) ['\n', '\n'] = ([[]], ['\n']) := by decide
    rw [hstep1, htail]
    rw [show ((if ([] : List Char) ≠ [] then ([] : List (List Char)) ++ [strip []] else [])
        ++ (c :: [[]])) = [c, []] by simp]
    rw [chunkLoop_nil, if_pos (by simp)]
    show List.filter _ [c, [], strip ['\n']] = [c]
    rw [show strip ['\n'] = [] from rfl]
    rw [List.filter_cons_of_pos (by rw [h1]; simpa using h2)]
    rfl

/-! ## Buffer-shape invariant -/

theorem suffix_getLast? (l₁ l₂ : List Char) (h : l₁ <:+ l₂) (hne : l₁ ≠ []) :
    l₂.getLast? = l₁.getLast? := by
  obtain ⟨t, rfl⟩ := h
  rw [List.getLast?_append]
  cases hl : l₁.getLast? with
  | none =>
    rw [List.getLast?_eq_none_iff] at hl
    exact absurd hl hne
  | some y => rfl

theorem strip_rest_len (n : Nat) (hn : 1 ≤ n) (p rest : List Char)
    (hsuf : rest <:+ p ++ ['\n', '\n']) (hlen : rest.length ≤ n) :
    (strip rest).length < n := by
  by_cases hne : rest = []
  · subst hne
    simpa using hn
  · have hgl : rest.getLast? = some '\n' := by
      rw [← suffix_getLast? rest (p ++ ['\n', '\n']) hsuf hne,
        show p ++ ['\n', '\n'] = (p ++ ['\n']) ++ ['\n'] by simp,
        List.getLast?_concat]
    have := strip_length_lt_of_getLast_ws rest '\n' hgl rfl
    omega

theorem endsNL_iff_of_suffix (t p : List Char) (h : t <:+ p) (hne : t ≠ []) :
    (endsNL t ↔ endsNL p) := by
  unfold endsNL
  rw [suffix_getLast? t p h hne]

theorem bufShape_tail (p : List Char) (ps' : List (List Char)) (cur : List Char)
    (hb : BufShape (p :: ps') cur) : BufShape ps' cur := by
  rcases hb with hNL | ⟨qs, hcur, hq1, hq3, hq2, hlok⟩
  · exact Or.inl hNL
  · refine Or.inr ⟨qs, hcur, hq1, hq3, hq2, ?_⟩
    intro q hq
    rcases hlok q hq with hl | hr
    · exact Or.inl hl
    · exact Or.inr (fun r hr2 => hr r (List.mem_cons_of_mem p hr2))

theorem bufShape_grow (ps' : List (List Char)) (cur p : List Char)
    (hb : BufShape (p :: ps') cur)
    (hp : strip p ≠ []) (hpn : nnFree p)
    (hlast : ps' ≠ [] → ¬ endsNL p) :
    BufShape ps' (cur ++ p ++ ['\n', '\n']) := by
  have hpne : p ≠ [] := by
    intro e
    rw [e] at hp
    exact hp rfl
  have hlok2 : ∀ (t : List Char), (t ≠ [] → (endsNL t ↔ endsNL p)) →
      (¬ endsNL t ∨ ∀ r ∈ ps', strip r = []) := by
    intro t hiff
    by_cases hws : ∀ r ∈ ps', strip r = []
    · exact Or.inr hws
    · push_neg at hws
      obtain ⟨r, hr1, _⟩ := hws
      have hps' : ps' ≠ [] := by
        intro e
        rw [e] at hr1
        simp at hr1
      refine Or.inl ?_
      by_cases ht : t = []
      · subst ht
        simp [endsNL]
      · rw [hiff ht]
        exact hlast hps'
  rcases hb with hNL | ⟨qs, hcur, hq1, hq3, hq2, hlok⟩
  · subst hNL
    by_cases hph : p.head? = some '\n'
    · obtain ⟨p', hp'⟩ : ∃ p', p = '\n' :: p' := by
        cases p with
        | nil => simp at hph
        | cons a b =>
          simp at hph
          subst hph
          exact ⟨b, rfl⟩
      subst hp'
      have hp'ne : strip p' ≠ [] := by
        intro e
        apply hp
        rw [show ('\n' :: p') = ['\n'] ++ p' from rfl,
          strip_append_allWS_left ['\n'] p' (by intro x hx; simp at hx; rw [hx]; rfl)]
        exact e
      have hp'nenil : p' ≠ [] := by
        intro e
        rw [e] at hp'ne
        exact hp'ne rfl
      refine Or.inr ⟨[[], p'], by simp [joinMap], ?_, ?_, ?_, ?_⟩
      · intro q hq
        rcases List.mem_cons.mp hq with hq | hq
        · rw [hq]
          exact nnFree_nil
        · simp at hq
          rw [hq]
          exact nnFree_of_inf _ _ hpn (List.IsSuffix.isInfix ⟨['\n'], rfl⟩)
      · intro q hq
        simp at hq
        rw [hq]
        exact hp'ne
      · intro q hq
        simp at hq
        rw [hq]
        simp [endsNL]
      · intro q hq
        simp at hq
        subst hq
        apply hlok2
        intro ht
        have : ('\n' :: p').getLast? = p'.getLast? := by
          rw [show ('\n' :: p') = ['\n'] ++ p' from rfl, List.getLast?_append]
          cases hgl : p'.getLast? with
          | none =>
            rw [List.getLast?_eq_none_iff] at hgl
            exact absurd hgl hp'nenil
          | some y => rfl
        unfold endsNL
        rw [this]
    · refine Or.inr ⟨['\n' :: p], by simp [joinMap], ?_, by simp, by simp, ?_⟩
      · intro q hq
        simp at hq
        rw [hq]
        exact nnFree_cons_of '\n' p hpn (fun ⟨_, e⟩ => hph e)
      · intro q hq
        simp at hq
        subst hq
        apply hlok2
        intro _
        have : ('\n' :: p).getLast? = p.getLast? := by
          rw [show ('\n' :: p) = ['\n'] ++ p from rfl, List.getLast?_append]
          cases hgl : p.getLast? with
          | none =>
            rw [List.getLast?_eq_none_iff] at hgl
            exact absurd hgl hpne
          | some y => rfl
        unfold endsNL
        rw [this]
  · subst hcur
    refine Or.inr ⟨qs ++ [p], by simp [joinMap], ?_, ?_, ?_, ?_⟩
    · intro q hq
      rcases List.mem_append.mp hq with hq | hq
      · exact hq1 q hq
      · simp at hq
        rw [hq]
        exact hpn
    · intro q hq
      cases qs with
      | nil =>
        simp at hq
      | cons a b =>
        rw [List.cons_append, List.tail_cons] at hq
        rcases List.mem_append.mp hq with hq | hq
        · exact hq3 q (by simpa using hq)
        · simp at hq
          rw [hq]
          exact hp
    · intro q hq
      rw [List.dropLast_concat] at hq
      by_cases hqs : qs = []
      · subst hqs
        simp at hq
      · have hq' : q ∈ qs.dropLast ++ [qs.getLast hqs] := by
          rw [List.dropLast_concat_getLast hqs]
          exact hq
        rcases List.mem_append.mp hq' with hq2m | hq2m
        · exact hq2 q hq2m
        · have he : q = qs.getLast hqs := by simpa using hq2m
          subst he
          rcases hlok (qs.getLast hqs) (by rw [List.getLast?_eq_getLast qs hqs]) with hl | hr
          · exact hl
          · exact absurd (hr p (List.mem_cons_self p ps')) hp
    · intro q hq
      rw [List.getLast?_concat] at hq
      injection hq with hq
      subst hq
      apply hlok2
      intro _
      rfl

theorem lastok_of (ps' : List (List Char)) (p t : List Char)
    (hlast : ps' ≠ [] → ¬ endsNL p)
    (hiff : t ≠ [] → (endsNL t ↔ endsNL p)) :
    ¬ endsNL t ∨ ∀ r ∈ ps', strip r = [] := by
  by_cases hws : ∀ r ∈ ps', strip r = []
  · exact Or.inr hws
  · push_neg at hws
    obtain ⟨r, hr1, _⟩ := hws
    have hps' : ps' ≠ [] := by
      intro e
      rw [e] at hr1
      simp at hr1
    refine Or.inl ?_
    by_cases ht : t = []
    · subst ht
      simp [endsNL]
    · rw [hiff ht]
      exact hlast hps'

theorem bufShape_carve_rest (ps' : List (List Char)) (p rest : List Char)
    (hsuf : rest <:+ p ++ ['\n', '\n'])
    (hpn : nnFree p)
    (hlast : ps' ≠ [] → ¬ endsNL p) :
    BufShape ps' rest := by
  obtain ⟨t, ht⟩ := hsuf
  have hk : rest = (p ++ ['\n', '\n']).drop t.length := by
    rw [← ht, List.drop_left]
  by_cases hkp : t.length ≤ p.length
  · have hrest : rest = p.drop t.length ++ ['\n', '\n'] := by
      rw [hk, List.drop_append_of_le_length hkp]
    refine Or.inr ⟨[p.drop t.length], by simp [joinMap, hrest], ?_, by simp, by simp, ?_⟩
    · intro q hq
      simp at hq
      rw [hq]
      exact nnFree_of_inf p _ hpn (List.drop_suffix _ _).isInfix
    · intro q hq
      simp at hq
      subst hq
      apply lastok_of ps' p _ hlast
      intro htne
      exact endsNL_iff_of_suffix _ p (List.drop_suffix _ _) htne
  · have h2 : rest = List.drop (t.length - p.length) ['\n', '\n'] := by
      rw [hk, show t.length = p.length + (t.length - p.length) by omega, List.drop_append]
      congr 1
      omega
    rcases Nat.lt_or_ge (t.length - p.length) 2 with hlt | hge
    · have he1 : t.length - p.length = 1 := by omega
      rw [he1] at h2
      exact Or.inl (by rw [h2]; rfl)
    · have h3 : rest = [] := by
        rw [h2]
        exact List.drop_eq_nil_of_le (by simp; omega)
      refine Or.inr ⟨[], by simp [joinMap, h3], by simp, by simp, by simp, by simp⟩

theorem flush_nice (n : Nat) (ps : List (List Char)) (cur : List Char)
    (hb : BufShape ps cur) (hlen : (strip cur).length < n) : NiceChunk n (strip cur) := by
  refine ⟨strip_idem cur, ?_⟩
  by_cases hnil : strip cur = []
  · exact Or.inl hnil
  rcases hb with hNL | ⟨qs, hcur, hq1, hq3, hq2, _⟩
  · subst hNL
    exact absurd rfl hnil
  · subst hcur
    exact Or.inr (Or.inl ⟨hlen, (flush_parts qs hq1 hq2 hq3).resolve_left hnil⟩)

theorem chunkLoop_nice (n : Nat) (hn : 1 ≤ n) : ∀ (ps : List (List Char)) (cur : List Char)
    (acc : List (List Char)),
    (∀ q ∈ ps, nnFree q) →
    (∀ q ∈ ps.dropLast, ¬ endsNL q) →
    BufShape ps cur →
    (strip cur).length < n →
    (∀ c ∈ acc, NiceChunk n c) →
    ∀ c ∈ chunkLoop n ps cur acc, NiceChunk n c := by
  intro ps
  induction ps with
  | nil =>
    intro cur acc _ _ hb hlen hacc c hc
    rw [chunkLoop_nil] at hc
    split at hc
    · rcases List.mem_append.mp hc with hc | hc
      · exact hacc c hc
      · simp at hc
        subst hc
        exact flush_nice n [] cur hb hlen
    · exact hacc c hc
  | cons p ps' ih =>
    intro cur acc hnn hdl hb hlen hacc c hc
    have hnnps' : ∀ q ∈ ps', nnFree q := fun q hq => hnn q (List.mem_cons_of_mem p hq)
    have hdlps' : ∀ q ∈ ps'.dropLast, ¬ endsNL q := by
      intro q hq
      apply hdl q
      cases ps' with
      | nil => simp at hq
      | cons a b =>
        rw [List.dropLast_cons_of_ne_nil (by simp)]
        exact List.mem_cons_of_mem p hq
    have hplast : ps' ≠ [] → ¬ endsNL p := by
      intro hne
      apply hdl p
      cases ps' with
      | nil => exact absurd rfl hne
      | cons a b =>
        rw [List.dropLast_cons_of_ne_nil (by simp)]
        exact List.mem_cons_self _ _
    by_cases hskip : strip p = []
    · rw [chunkLoop_cons_skip n p ps' cur acc hskip] at hc
      exact ih cur acc hnnps' hdlps' (bufShape_tail p ps' cur hb) hlen hacc c hc
    by_cases hfit : cur.length + p.length < n
    · rw [chunkLoop_cons_fit n p ps' cur acc hskip hfit] at hc
      refine ih _ acc hnnps' hdlps'
        (bufShape_grow ps' cur p hb hskip (hnn p (List.mem_cons_self p ps')) hplast)
        ?_ hacc c hc
      calc (strip (cur ++ p ++ ['\n', '\n'])).length
          = (strip (cur ++ p)).length := by
            rw [show cur ++ p ++ ['\n', '\n'] = (cur ++ p) ++ ['\n', '\n'] by simp,
              strip_append_allWS (cur ++ p) ['\n', '\n']
                (by intro x hx; simp at hx; rw [hx]; rfl)]
        _ ≤ (cur ++ p).length := strip_length_le _
        _ < n := by simp only [List.length_append]; omega
    · rw [chunkLoop_cons_carve n p ps' cur acc hskip hfit] at hc
      have hpn := hnn p (List.mem_cons_self p ps')
      have hsuf : (carveFuel n (p ++ ['\n', '\n']).length (p ++ ['\n', '\n'])).2
          <:+ p ++ ['\n', '\n'] := carveFuel_rest_suffix n _ _
      have hrest : (carveFuel n (p ++ ['\n', '\n']).length (p ++ ['\n', '\n'])).2.length
          ≤ n := (carveFuel_bounds n hn _ _ le_rfl).2
      refine ih _ _ hnnps' hdlps'
        (bufShape_carve_rest ps' p _ hsuf hpn hplast)
        (strip_rest_len n hn p _ hsuf hrest)
        ?_ c hc
      intro c' hc'
      rcases List.mem_append.mp hc' with hc' | hc'
      · split at hc'
        · rcases List.mem_append.mp hc' with hc' | hc'
          · exact hacc c' hc'
          · simp at hc'
            subst hc'
            exact flush_nice n (p :: ps') cur hb hlen
        · exact hacc c' hc'
      · exact carveFuel_chunks_nice n p hpn _ _ List.suffix_rfl c' hc'

/-! ## Claim C7 -/

/-- C7: `_smart_chunk` is idempotent on its own output — every chunk it
emits, re-chunked with the same positive `chunk_size`, comes back as
exactly that one chunk.  (`chunk_size = 0` is excluded: there the source
never terminates.) -/
theorem c7_chunk_idempotent (text : List Char) (n : Nat) (hn : 1 ≤ n) :
    ∀ c ∈ smart_chunk text n, smart_chunk c n = [c] := by
  intro c hc
  have hkeep : ¬ (strip c).isEmpty = true := by
    unfold smart_chunk at hc
    split at hc
    · simp at hc
    · have := List.of_mem_filter hc
      simpa using this
  have hne0 : strip c ≠ [] := by
    intro e
    apply hkeep
    rw [e]
    rfl
  have hnice : NiceChunk n c := by
    unfold smart_chunk at hc
    split at hc
    · simp at hc
    · refine chunkLoop_nice n hn (splitNN text) [] []
        (splitNN_parts_nnFree text) (splitNN_dropLast_not_endsNL text)
        (Or.inr ⟨[], rfl, by simp, by simp, by simp, by simp⟩)
        (by simpa using hn) (by simp) c (List.mem_of_mem_filter hc)
  obtain ⟨hstrip, hcase⟩ := hnice
  have hcne : c ≠ [] := by
    intro e
    apply hne0
    rw [e]
    rfl
  rcases hcase with he | ⟨hlt, hgp⟩ | ⟨heq, hnl, hsp⟩
  · exact absurd he hcne
  · exact rechunk_small n c hstrip hcne hlt hgp
  · exact rechunk_exact n hn c hstrip hcne heq hnl hsp

/-- Witness for C7 at a concrete input. -/
theorem c7_chunk_idempotent_witness :
    (1 : Nat) ≤ 5
    ∧ ∀ c ∈ smart_chunk "ab cd. ef\n\ngh ij".toList 5, smart_chunk c 5 = [c] :=
  ⟨by omega, c7_chunk_idempotent "ab cd. ef\n\ngh ij".toList 5 (by omega)⟩
